import Mathlib

/-!
Verification of the `llm-multi` container/mapping pipeline.

This file shallowly embeds the pure logic of the repository's four modules
(`map.py`, `format.py`, `archive.py`, `cli.py`) into Lean:

* Strings are modelled as `List Char` (`Str`).
* The thread pool of `map_items` is modelled by an explicit completion
  order (a permutation of the submitted task indices); results are
  collected in that order, exactly as `as_completed` hands futures back.
* The Python `json` standard library is kept abstract: functions that
  call `json.dumps` / `json.loads` take the pair as parameters, and
  round-trip theorems assume the library contract (`loads (dumps v) = v`,
  output of `dumps` is newline-free and has no surrounding whitespace).
  An executable mini serializer/parser (`miniDumps` / `miniLoads`)
  instantiates those parameters in concrete witnesses.
* `html.escape` / `html.unescape` are modelled concretely on the
  entities `escape` emits.
* File writes are modelled by the function from previous file content to
  new file content (append mode vs. truncate mode).
-/

abbrev Str := List Char

/-! ## Generic string helpers (Python `str` operations) -/

/-- Python whitespace recognized by `str.strip` (ASCII subset, which covers
every character produced by the encoders modelled here). -/
def isPyWS (c : Char) : Bool :=
  c = ' ' || c = '\t' || c = '\n' || c = '\r' || c = '\x0b' || c = '\x0c'

/-- Python `s.strip()`. -/
def pyStrip (s : Str) : Str :=
  ((s.dropWhile isPyWS).reverse.dropWhile isPyWS).reverse

/-- Python `s.split(sep)` for a one-character separator: keeps empty pieces. -/
def pySplit (sep : Char) : Str → List Str
  | [] => [[]]
  | c :: rest =>
    if c = sep then [] :: pySplit sep rest
    else
      match pySplit sep rest with
      | [] => [[c]]
      | l :: ls => (c :: l) :: ls

/-- Python `pat in s` (substring containment). -/
def containsSub (pat : Str) : Str → Bool
  | [] => decide (pat = [])
  | c :: rest => pat.isPrefixOf (c :: rest) || containsSub pat rest

/-- Python `s.replace(pat, repl, 1)` for a nonempty `pat`:
replace the leftmost occurrence only. -/
def replaceFirst (pat repl : Str) : Str → Str
  | [] => []
  | c :: rest =>
    if pat.isPrefixOf (c :: rest) then repl ++ (c :: rest).drop pat.length
    else c :: replaceFirst pat repl rest

/-- Index of the first occurrence of `pat` in `s`, if any. -/
def findSub (pat : Str) : Str → Option Nat
  | [] => if pat = [] then some 0 else none
  | c :: rest =>
    if pat.isPrefixOf (c :: rest) then some 0
    else (findSub pat rest).map (· + 1)

/-! ## Decimal rendering (Python `str(i)` on a nonnegative integer) -/

def digitChar (d : Nat) : Char := Char.ofNat (48 + d)

/-- Little-endian decimal digits, fuel-driven so it reduces in the kernel. -/
def decDigitsF : Nat → Nat → List Nat
  | 0, _ => []
  | f + 1, n => if n < 10 then [n] else n % 10 :: decDigitsF f (n / 10)

/-- Little-endian decimal digits of `n` (`0` yields `[0]`). -/
def decRep (n : Nat) : List Nat := decDigitsF (n + 1) n

/-- Python `str(n)` for a natural number. -/
def natStr (n : Nat) : Str := (decRep n).reverse.map digitChar

/-- Python `s.zfill(width)`: left-pad with `'0'` up to `width`. -/
def zfill (s : Str) (width : Nat) : Str :=
  List.replicate (width - s.length) '0' ++ s

/-! ## Data model: items and results

An `Item` is one `{"path": ..., "content": ...}` record flowing into the
mapping stage (`map.py`).  A `Result` is the per-item output dict of
`process_item`: `{"path", "content"}` on success, `{"path", "error"}` on
failure, plus an `"input"` key when `include_input` is set. -/

structure Item where
  path : Str
  content : Str
deriving DecidableEq

inductive Outcome where
  | success (content : Str)
  | failure (message : Str)
deriving DecidableEq

structure MapResult where
  path : Str
  outcome : Outcome
  input : Option Str
deriving DecidableEq

def Outcome.isFailure : Outcome → Bool
  | .failure _ => true
  | .success _ => false

def Outcome.isSuccess : Outcome → Bool
  | .failure _ => false
  | .success _ => true

/-! ## Prompt formatting and per-item task (`map.py`, `process_item`) -/

/-- The literal placeholder token searched for in the template. -/
def itemToken : Str := "{item}".toList

/-- The prompt-building logic of `process_item` (map.py lines 52–57):
empty template passes content through; a template containing `{item}` has
only its first occurrence replaced; otherwise template and content are
joined with a newline. -/
def formatPrompt (template content : Str) : Str :=
  if template = [] then content
  else if containsSub itemToken template then replaceFirst itemToken content template
  else template ++ '\n' :: content

/-- `process_item` (map.py lines 47–74).  The generation backend
(`llm.get_model(...).prompt(...).text()`) is abstracted as a function from
the formatted prompt to either generated text or a fault message; the
`try/except` around the task body becomes the `match` on that `Except`:
a backend fault is converted into a failure result, never propagated. -/
def process_item (backend : Str → Except Str Str) (prompt_template : Str)
    (include_input : Bool) (item : Item) : MapResult :=
  let formatted_prompt := formatPrompt prompt_template item.content
  match backend formatted_prompt with
  | .ok text =>
      { path := item.path, outcome := .success text,
        input := if include_input then some item.content else none }
  | .error e =>
      { path := item.path, outcome := .failure e,
        input := if include_input then some item.content else none }

/-! ## Branch expansion (`map.py`, `expand_branches`) -/

/-- `expand_branches` (map.py lines 11–26). -/
def expand_branches (items : List Item) (branches : Nat) : List Item :=
  if branches = 1 then items
  else
    let pad_width := (natStr (branches - 1)).length
    (List.range branches).flatMap (fun i =>
      items.map (fun item =>
        { item with path := zfill (natStr i) pad_width ++ '_' :: item.path }))

/-! ## The concurrent mapping engine (`map.py`, `map_items`)

`map_items` submits one `process_item` task per expanded item to a
`ThreadPoolExecutor(max_workers=concurrency)` and appends each future's
result as `as_completed` yields it.  `as_completed` yields every submitted
future exactly once, in an order that is nondeterministic under
concurrency; we model that order as an explicit permutation of the task
indices.  The `concurrency` argument only bounds parallelism and does not
affect which results are collected, so the model carries it unused. -/

def map_items_collect (task : Item → MapResult) (items : List Item)
    (concurrency : Nat) (order : List (Fin items.length)) : List MapResult :=
  let _ := concurrency
  order.map (fun i => task (items.get i))

/-! ## JSON values

The subset of JSON this program ever constructs or destructures: strings,
objects, arrays.  `json.loads` returns Python dicts for objects, so the
object constructor of a parsed value carries first-occurrence /
last-value-wins key semantics (see `pyDict`). -/

inductive JValue where
  | str (s : Str)
  | obj (kvs : List (Str × JValue))
  | arr (xs : List JValue)

/-- One `d[k] = v` assignment on a Python dict represented as an ordered
association list: an existing key keeps its position and gets the new
value; a new key is appended. -/
def dictInsert (d : List (Str × JValue)) (k : Str) (v : JValue) :
    List (Str × JValue) :=
  if (d.map Prod.fst).contains k then
    d.map (fun kv => if kv.1 = k then (k, v) else kv)
  else d ++ [(k, v)]

/-- Building a Python dict from a pair sequence (dict comprehension or a
`d[k] = v` loop): keys keep first-occurrence order, values are
last-wins. -/
def pyDict (l : List (Str × JValue)) : List (Str × JValue) :=
  l.foldl (fun d kv => dictInsert d kv.1 kv.2) []

def pathKey : Str := "path".toList
def contentKey : Str := "content".toList
def errorKey : Str := "error".toList
def inputKey : Str := "input".toList

/-- The dict `{"path": path, "content": content}` built by the decoders. -/
def itemJson (path : Str) (content : JValue) : JValue :=
  .obj [(pathKey, .str path), (contentKey, content)]

/-- Synthetic path `item_{i}` assigned by the positional-array decoder in
`parse_input`. -/
def itemPath (i : Nat) : Str := "item_".toList ++ natStr i

/-! ## Tag-delimited formats (`archive.py` encode, `format.py` decode) -/

/-- Characters the tag substitution keeps: the class `[a-zA-Z0-9_-]` of
`re.sub(r"[^a-zA-Z0-9_-]", "_", display_path)`. -/
def isTagChar (c : Char) : Bool :=
  ('a' ≤ c && c ≤ 'z') || ('A' ≤ c && c ≤ 'Z') || ('0' ≤ c && c ≤ '9') ||
  c = '_' || c = '-'

/-- Path → tag transform of `create_archive`: every character outside
`[a-zA-Z0-9_-]` becomes `'_'`. -/
def tagOf (path : Str) : Str := path.map (fun c => if isTagChar c then c else '_')

/-- Tag → path transform of the decoders: `tag_name.replace("_", ".")`. -/
def tagToPath (tag : Str) : Str := tag.map (fun c => if c = '_' then '.' else c)

/-- `html.escape(content)` (quote=True): per-character replacement of
`& < > " '` by their entities.  Python applies five sequential
`str.replace` passes (`&` first); since none of the later passes touches a
character produced by an earlier one, that equals this per-character map. -/
def htmlEscapeChar (c : Char) : Str :=
  if c = '&' then "&amp;".toList
  else if c = '<' then "&lt;".toList
  else if c = '>' then "&gt;".toList
  else if c = '"' then "&quot;".toList
  else if c = '\'' then "&#x27;".toList
  else [c]

def htmlEscape (s : Str) : Str := s.flatMap htmlEscapeChar

/-- `html.unescape` restricted to the entity references `html.escape`
emits (each with its terminating `;`); every other character, including a
`&` that does not start one of these references, passes through.  On
escape images this agrees with Python's full HTML5 entity decoder. -/
def htmlUnescape : Str → Str
  | '&' :: 'a' :: 'm' :: 'p' :: ';' :: rest => '&' :: htmlUnescape rest
  | '&' :: 'l' :: 't' :: ';' :: rest => '<' :: htmlUnescape rest
  | '&' :: 'g' :: 't' :: ';' :: rest => '>' :: htmlUnescape rest
  | '&' :: 'q' :: 'u' :: 'o' :: 't' :: ';' :: rest => '"' :: htmlUnescape rest
  | '&' :: '#' :: 'x' :: '2' :: '7' :: ';' :: rest => '\'' :: htmlUnescape rest
  | c :: rest => c :: htmlUnescape rest
  | [] => []

/-- One emitted block `<tag>\n{body}\n</tag>` (the caller appends the
newline `click.echo` adds). -/
def blockText (tag body : Str) : Str :=
  '<' :: tag ++ '>' :: '\n' :: body ++ '\n' :: '<' :: '/' :: tag ++ ['>']

/-- The closing delimiter `</tag>` the regex backreference requires. -/
def closeTag (tag : Str) : Str := '<' :: '/' :: tag ++ ['>']

/-- Group 1 of a match of `<([^>]+)>` starting right after the `<`:
the maximal nonempty run of non-`>` characters, which must be followed by
`>`.  (Because `[^>]+` can never match `>`, greedy matching with
backtracking forces exactly this run.) -/
def takeTag (s : Str) : Option (Str × Str) :=
  let tag := s.takeWhile (fun c => c ≠ '>')
  if tag = [] then none
  else
    match s.dropWhile (fun c => c ≠ '>') with
    | [] => none
    | _ :: r => some (tag, r)

/-- `re.findall(r"<([^>]+)>(.*?)</\1>", content, re.DOTALL)`: scan left to
right; at each `<` take the greedy tag run, then the lazy `(.*?)` makes
the body end at the first later occurrence of `</tag>`; on failure the
scan advances one character, and after a match it resumes past the match.
Fuel-driven (one unit per scanned position) so it reduces in the kernel;
`findBlocks` supplies sufficient fuel. -/
def findBlocksF : Nat → Str → List (Str × Str)
  | 0, _ => []
  | _ + 1, [] => []
  | f + 1, c :: rest =>
    if c = '<' then
      match takeTag rest with
      | some (tag, afterGt) =>
        match findSub (closeTag tag) afterGt with
        | some i =>
            (tag, afterGt.take i) ::
              findBlocksF f (afterGt.drop (i + (closeTag tag).length))
        | none => findBlocksF f rest
      | none => findBlocksF f rest
    else findBlocksF f rest

def findBlocks (s : Str) : List (Str × Str) := findBlocksF s.length s

/-- The two newline trims of the tagged-format decoders: drop one leading
newline if present, then one trailing newline if present. -/
def trimBlockBody (s : Str) : Str :=
  let s1 := match s with
    | '\n' :: r => r
    | other => other
  match s1.reverse with
  | '\n' :: r => r.reverse
  | _ => s1

/-! ## Container decoding (`format.py`, `parse_input`) -/

inductive Format where
  | jsonl | json | jsonarr | xml | xmlish
deriving DecidableEq

/-- Warning line emitted for an unparseable JSONL line. -/
def warnLine (e : Str) : Str := "Warning: Could not parse line: ".toList ++ e

/-- Warning line emitted when the whole keyed-object container fails. -/
def warnJson (e : Str) : Str := "Warning: Could not parse JSON: ".toList ++ e

/-- Warning line emitted when the whole positional-array container fails. -/
def warnJsonArr (e : Str) : Str :=
  "Warning: Could not parse JSON array: ".toList ++ e

/-- Message of the `AttributeError` raised by `data.items()` when the
parsed document is not an object. -/
def itemsAttrError : Str := "AttributeError: items".toList

/-- `parse_input` (format.py lines 10–63) on already-read container text,
returning the decoded item dicts and the warnings echoed to stderr.
`loads` abstracts `json.loads` (`.error` is a raised `json.JSONDecodeError`
whose text lands in the warning).

Fidelity notes, per branch:
* `jsonl`: iterate `content.split("\n")`, skip blank lines, append each
  parsed value as-is (no field validation), warn per bad line.
* `json`: `data.items()` — an object yields one `{"path", "content"}` dict
  per key in dict order; a non-object raises `AttributeError`, caught by
  the same `except`, so it warns and yields nothing.
* `jsonarr`: `enumerate(data)` — an array enumerates elements; a dict
  enumerates its keys; a string enumerates its characters (each a
  one-character string); all get synthetic `item_{i}` paths.
* `xml`/`xmlish`: regex scan (`findBlocks`), per-block newline trim,
  unescape only for `xml`, `_` → `.` on the tag.  Text the regex does not
  match is passed over silently; `re.findall` itself does not raise here,
  so this branch produces no warnings. -/
def parse_input (loads : Str → Except Str JValue) (content : Str)
    (iformat : Format) : List JValue × List Str :=
  match iformat with
  | .jsonl =>
    (pySplit '\n' content).foldl
      (fun acc line =>
        if pyStrip line = [] then acc
        else
          match loads line with
          | .ok item => (acc.1 ++ [item], acc.2)
          | .error e => (acc.1, acc.2 ++ [warnLine e]))
      ([], [])
  | .json =>
    match loads content with
    | .ok (.obj kvs) => (kvs.map (fun kv => itemJson kv.1 kv.2), [])
    | .ok _ => ([], [warnJson itemsAttrError])
    | .error e => ([], [warnJson e])
  | .jsonarr =>
    match loads content with
    | .ok (.arr xs) =>
        (xs.enum.map (fun iv => itemJson (itemPath iv.1) iv.2), [])
    | .ok (.obj kvs) =>
        (kvs.enum.map (fun ikv => itemJson (itemPath ikv.1) (.str ikv.2.1)), [])
    | .ok (.str s) =>
        (s.enum.map (fun ic => itemJson (itemPath ic.1) (.str [ic.2])), [])
    | .error e => ([], [warnJsonArr e])
  | .xml | .xmlish =>
    ((findBlocks content).map (fun tb =>
        let body := trimBlockBody tb.2
        let body := if iformat = .xml then htmlUnescape body else body
        itemJson (tagToPath tb.1) (.str body)), [])

/-- `parse_input` as reached through a named input file: the raw file text
is `.strip()`-ed on read (format.py line 16) before the per-format logic
runs.  (Reading from `-` skips the strip.) -/
def parse_input_file (loads : Str → Except Str JValue) (raw : Str)
    (iformat : Format) : List JValue × List Str :=
  parse_input loads (pyStrip raw) iformat

/-! ## Container encoding (`archive.py` `create_archive` emission +
`format.py` `create_archive_output`)

`create_archive` reads each file and emits `jsonl`/`xml`/`xmlish` records
inline; for `json`/`jsonarr` it collects `(display_path, content)` tuples
and hands them to `create_archive_output`.  Either way the serialized
container text is a function of the tuple list, modelled here; every
`click.echo` appends a newline.  `dumps` abstracts `json.dumps`. -/

def encodeEntries (dumps : JValue → Str) (entries : List (Str × Str)) :
    Format → Str
  | .jsonl =>
    (entries.map (fun e => dumps (itemJson e.1 (.str e.2)) ++ ['\n'])).flatten
  | .xml =>
    (entries.map (fun e =>
       blockText (tagOf e.1) (htmlEscape e.2) ++ ['\n'])).flatten
  | .xmlish =>
    (entries.map (fun e => blockText (tagOf e.1) e.2 ++ ['\n'])).flatten
  | .json =>
    dumps (.obj (pyDict (entries.map (fun e => (e.1, .str e.2))))) ++ ['\n']
  | .jsonarr =>
    dumps (.arr (entries.map (fun e => .str e.2))) ++ ['\n']

/-! ## Result encoding (`format.py`, `output_results`) -/

/-- The result dict `process_item` returned, as the JSON object
`output_results` serializes on the `jsonl` path: `path`, then `content`
or `error`, then optionally `input`. -/
def resultJson (r : MapResult) : JValue :=
  .obj
    ((pathKey, .str r.path) ::
      (match r.outcome with
       | .success c => (contentKey, JValue.str c)
       | .failure m => (errorKey, JValue.str m)) ::
      (match r.input with
       | some i => [(inputKey, JValue.str i)]
       | none => []))

/-- The value stored under a result's path by the keyed-object encoder:
the bare content on success, `{"error": message}` on failure (the
`input` field is dropped by this format). -/
def resultValue (r : MapResult) : JValue :=
  match r.outcome with
  | .success c => .str c
  | .failure m => .obj [(errorKey, .str m)]

/-- The keyed object built by `output_results` for `oformat == "json"`:
`json_result[path] = ...` over the results in order. -/
def output_results_obj (results : List MapResult) : List (Str × JValue) :=
  pyDict (results.map (fun r => (r.path, resultValue r)))

/-- The array built by `output_results` for `oformat == "jsonarr"`. -/
def output_results_arr (results : List MapResult) : List JValue :=
  results.map resultValue

/-- `output_results` (format.py lines 66–106) with an output file: the
function from the file's previous content to its content afterwards.
`jsonl` opens the file in append mode (`"a"`) once per result and writes
the record plus a newline; `json` and `jsonarr` open it in write mode
(`"w"`), truncating whatever was there.  (Formats outside the three JSON
ones have no branch and write nothing.) -/
def output_results_file (dumps : JValue → Str) (results : List MapResult)
    (oformat : Format) (pre : Str) : Str :=
  match oformat with
  | .jsonl =>
    results.foldl (fun acc r => acc ++ (dumps (resultJson r) ++ ['\n'])) pre
  | .json => dumps (.obj (output_results_obj results)) 
  | .jsonarr => dumps (.arr (output_results_arr results))
  | _ => pre

/-! ## Archive extraction (`archive.py`, `extract_archive`)

`extract_archive` mirrors `parse_input` but instead of collecting item
dicts it calls `extract_single_file(path, content, ...)` per unit; the
model returns the list of those `(path, content)` calls plus the warnings.
The filesystem work of `extract_single_file` (destination resolution,
mkdir, write) is outside the decoded-path question modelled here. -/

def lookupKey (k : Str) (kvs : List (Str × JValue)) : Option JValue :=
  (kvs.find? (fun kv => kv.1 = k)).map (fun kv => kv.2)

def warnExLine (e : Str) : Str := "Warning: Could not process line: ".toList ++ e
def warnExJson (e : Str) : Str := "Warning: Could not process JSON: ".toList ++ e
def warnExJsonArr (e : Str) : Str :=
  "Warning: Could not process JSON array: ".toList ++ e

/-- Message of the `KeyError` raised by `item["path"]`/`item["content"]`
on a line lacking those keys (or not being a dict at all). -/
def keyError : Str := "KeyError".toList

/-- `extract_archive` (archive.py lines 60–109).  The raw container text
is `.strip()`-ed on read (line 62).  The `jsonarr` branch names files
`item_{i}.txt` — unlike `parse_input`, which uses `item_{i}`. -/
def extract_archive_calls (loads : Str → Except Str JValue) (raw : Str)
    (format : Format) : List (Str × JValue) × List Str :=
  let content := pyStrip raw
  match format with
  | .jsonl =>
    (pySplit '\n' content).foldl
      (fun acc line =>
        if pyStrip line = [] then acc
        else
          match loads line with
          | .ok (.obj kvs) =>
            match lookupKey pathKey kvs, lookupKey contentKey kvs with
            | some (.str p), some v => (acc.1 ++ [(p, v)], acc.2)
            | _, _ => (acc.1, acc.2 ++ [warnExLine keyError])
          | .ok _ => (acc.1, acc.2 ++ [warnExLine keyError])
          | .error e => (acc.1, acc.2 ++ [warnExLine e]))
      ([], [])
  | .json =>
    match loads content with
    | .ok (.obj kvs) => (kvs.map (fun kv => (kv.1, kv.2)), [])
    | .ok _ => ([], [warnExJson itemsAttrError])
    | .error e => ([], [warnExJson e])
  | .jsonarr =>
    match loads content with
    | .ok (.arr xs) =>
        (xs.enum.map (fun iv =>
          (itemPath iv.1 ++ ".txt".toList, iv.2)), [])
    | .ok (.obj kvs) =>
        (kvs.enum.map (fun ikv =>
          (itemPath ikv.1 ++ ".txt".toList, JValue.str ikv.2.1)), [])
    | .ok (.str s) =>
        (s.enum.map (fun ic =>
          (itemPath ic.1 ++ ".txt".toList, JValue.str [ic.2])), [])
    | .error e => ([], [warnExJsonArr e])
  | .xml | .xmlish =>
    ((findBlocks content).map (fun tb =>
        let body := trimBlockBody tb.2
        let body := if format = .xml then htmlUnescape body else body
        (tagToPath tb.1, JValue.str body)), [])

/-! ## CLI validation (`cli.py`, `map_command`) -/

/-- The `--format` shortcut resolution followed by the `--input`
validation of `map_command` (cli.py lines 104–110): `--format` overwrites
both `iformat` and `oformat` first, then `--input` with a `json` or
`jsonarr` output format raises `click.ClickException` (which click turns
into a message on stderr and exit code 1).  On success the effective
`(iformat, oformat)` pair is what `map_items` receives. -/
def inputFormatErrorMsg : Str :=
  "Cannot use --input with --json or --jsonarr output formats".toList

def map_command_formats (include_input : Bool) (format : Option Format)
    (iformat oformat : Format) : Except Str (Format × Format) :=
  let ifo := match format with | some f => f | none => iformat
  let ofo := match format with | some f => f | none => oformat
  if include_input && (ofo = .json || ofo = .jsonarr) then
    .error inputFormatErrorMsg
  else .ok (ifo, ofo)

/-- `map_command` up to the first act of `map_items`, which is
`parse_input` on the container (map.py line 43): the validation error, if
any, occurs before the container is touched, so the error branch does not
depend on `loads` or on the container text. -/
def map_command_start (loads : Str → Except Str JValue) (content : Str)
    (include_input : Bool) (format : Option Format)
    (iformat oformat : Format) : Except Str (List JValue × List Str) :=
  match map_command_formats include_input format iformat oformat with
  | .error e => .error e
  | .ok fo => .ok (parse_input loads content fo.1)

/-! ## Executable mini `json.dumps` / `json.loads`

Concrete instances of the abstract serializer/parser parameters, used by
witnesses and counterexamples.  They implement the JSON fragment this
program exchanges (strings, objects, arrays; Python's default `", "` and
`": "` separators; the standard string escapes), fuel-driven so that
`decide`/`rfl` can evaluate them in the kernel. -/

def jsonEscChar (c : Char) : Str :=
  if c = '"' then ['\\', '"']
  else if c = '\\' then ['\\', '\\']
  else if c = '\n' then ['\\', 'n']
  else if c = '\t' then ['\\', 't']
  else if c = '\r' then ['\\', 'r']
  else [c]

def dumpsStr (s : Str) : Str := '"' :: (s.flatMap jsonEscChar) ++ ['"']

def commaJoin : List Str → Str
  | [] => []
  | [x] => x
  | x :: y :: r => x ++ ',' :: ' ' :: commaJoin (y :: r)

def miniDumpsF : Nat → JValue → Str
  | 0, _ => []
  | f + 1, .str s => dumpsStr s
  | f + 1, .obj kvs =>
    '{' :: commaJoin (kvs.map (fun kv =>
      dumpsStr kv.1 ++ ':' :: ' ' :: miniDumpsF f kv.2)) ++ ['}']
  | f + 1, .arr xs => '[' :: commaJoin (xs.map (miniDumpsF f)) ++ [']']

def miniDumps (v : JValue) : Str := miniDumpsF 100 v

def skipWS (s : Str) : Str := s.dropWhile isPyWS

def parseStrBody : Str → Option (Str × Str)
  | '"' :: r => some ([], r)
  | '\\' :: c :: r =>
    match parseStrBody r with
    | some br =>
      if c = 'n' then some ('\n' :: br.1, br.2)
      else if c = 't' then some ('\t' :: br.1, br.2)
      else if c = 'r' then some ('\r' :: br.1, br.2)
      else if c = '"' then some ('"' :: br.1, br.2)
      else if c = '\\' then some ('\\' :: br.1, br.2)
      else if c = '/' then some ('/' :: br.1, br.2)
      else none
    | none => none
  | c :: r => (parseStrBody r).map (fun br => (c :: br.1, br.2))
  | [] => none

mutual

def parseVal : Nat → Str → Except Str (JValue × Str)
  | 0, _ => .error "Too deep".toList
  | f + 1, s =>
    match skipWS s with
    | '"' :: r =>
      match parseStrBody r with
      | some br => .ok (.str br.1, br.2)
      | none => .error "Unterminated string".toList
    | '{' :: r =>
      match skipWS r with
      | '}' :: rest => .ok (.obj [], rest)
      | r2 => (parseMembers f r2).map (fun p => (.obj (pyDict p.1), p.2))
    | '[' :: r =>
      match skipWS r with
      | ']' :: rest => .ok (.arr [], rest)
      | r2 => (parseElems f r2).map (fun p => (.arr p.1, p.2))
    | _ => .error "Expecting value".toList

def parseMembers : Nat → Str → Except Str (List (Str × JValue) × Str)
  | 0, _ => .error "Too deep".toList
  | f + 1, s =>
    match skipWS s with
    | '"' :: r =>
      match parseStrBody r with
      | some kr =>
        match skipWS kr.2 with
        | ':' :: r2 =>
          match parseVal f r2 with
          | .ok vr =>
            match skipWS vr.2 with
            | ',' :: r4 =>
              (parseMembers f r4).map (fun p => ((kr.1, vr.1) :: p.1, p.2))
            | '}' :: r4 => .ok ([(kr.1, vr.1)], r4)
            | _ => .error "Expecting delimiter".toList
          | .error e => .error e
        | _ => .error "Expecting colon".toList
      | none => .error "Unterminated string".toList
    | _ => .error "Expecting property name".toList

def parseElems : Nat → Str → Except Str (List JValue × Str)
  | 0, _ => .error "Too deep".toList
  | f + 1, s =>
    match parseVal f s with
    | .ok vr =>
      match skipWS vr.2 with
      | ',' :: r2 => (parseElems f r2).map (fun p => (vr.1 :: p.1, p.2))
      | ']' :: r2 => .ok ([vr.1], r2)
      | _ => .error "Expecting delimiter".toList
    | .error e => .error e

end

def miniLoads (s : Str) : Except Str JValue :=
  match parseVal (s.length + 1) s with
  | .ok vr => if skipWS vr.2 = [] then .ok vr.1 else .error "Extra data".toList
  | .error e => .error e

/-! ## Helper lemmas -/

theorem replaceFirst_spec (pat repl : Str) (hne : pat ≠ []) :
    ∀ s : Str, containsSub pat s = true →
      ∃ pre post, s = pre ++ pat ++ post ∧
        replaceFirst pat repl s = pre ++ repl ++ post ∧
        ∀ k < pre.length, ¬ pat.isPrefixOf (s.drop k) := by
  intro s
  induction s with
  | nil =>
    intro h
    simp [containsSub] at h
    exact absurd h hne
  | cons c rest ih =>
    intro h
    by_cases hp : pat.isPrefixOf (c :: rest) = true
    · have hpre : pat <+: (c :: rest) := List.isPrefixOf_iff_prefix.mp hp
      obtain ⟨t, ht⟩ := hpre
      refine ⟨[], t, ?_, ?_, ?_⟩
      · simpa using ht.symm
      · simp only [replaceFirst, hp, if_true, List.nil_append]
        have : (c :: rest).drop pat.length = t := by
          rw [← ht, List.drop_left]
        rw [this]
      · intro k hk
        simp at hk
    · have h2 : containsSub pat rest = true := by
        simp only [containsSub, Bool.or_eq_true] at h
        rcases h with h | h
        · exact absurd h hp
        · exact h
      obtain ⟨pre, post, he, hr, hk⟩ := ih h2
      refine ⟨c :: pre, post, by simp [he], ?_, ?_⟩
      · simp only [replaceFirst, hp, if_false]
        simp [hr]
      · intro k hkk
        cases k with
        | zero => simpa using hp
        | succ k' =>
          simp only [List.drop_succ_cons]
          exact hk k' (by simpa using hkk)

/-- Claim C5: prompt formatting obeys exactly three cases in this
precedence: empty template yields the content verbatim; a template
containing the placeholder `{item}` has only its first occurrence
replaced (any later occurrence survives inside the unchanged tail);
a non-empty placeholder-free template is joined to the content with a
newline. -/
theorem prompt_format_three_cases (template content : Str) :
    (template = [] → formatPrompt template content = content) ∧
    (template ≠ [] → containsSub itemToken template = true →
      ∃ pre post, template = pre ++ itemToken ++ post ∧
        formatPrompt template content = pre ++ content ++ post ∧
        ∀ k < pre.length, ¬ itemToken.isPrefixOf (template.drop k)) ∧
    (template ≠ [] → containsSub itemToken template = false →
      formatPrompt template content = template ++ '\n' :: content) := by
  refine ⟨?_, ?_, ?_⟩
  · intro h
    simp [formatPrompt, h]
  · intro hne hc
    have := replaceFirst_spec itemToken content (by decide) template hc
    obtain ⟨pre, post, h1, h2, h3⟩ := this
    exact ⟨pre, post, h1, by simp [formatPrompt, hne, hc, h2], h3⟩
  · intro hne hc
    simp [formatPrompt, hne, hc]

theorem prompt_format_three_cases_witness :
    formatPrompt [] "X".toList = "X".toList ∧
    formatPrompt "Q".toList "X".toList = "Q\nX".toList := by
  constructor
  · exact (prompt_format_three_cases [] "X".toList).1 rfl
  · exact (prompt_format_three_cases "Q".toList "X".toList).2.2
      (by decide) (by decide)

theorem decDigitsF_eq_digits :
    ∀ f n, n < f → 1 ≤ n → decDigitsF f n = Nat.digits 10 n := by
  intro f
  induction f with
  | zero => intro n hn h1; omega
  | succ f ih =>
    intro n hn h1
    by_cases h10 : n < 10
    · simp only [decDigitsF, h10, if_true]
      rw [Nat.digits_def' (by norm_num) (by omega)]
      have hm : n % 10 = n := Nat.mod_eq_of_lt h10
      have hd : n / 10 = 0 := Nat.div_eq_of_lt h10
      rw [hm, hd]
      simp
    · simp only [decDigitsF, h10, if_false]
      rw [Nat.digits_def' (by norm_num) (by omega)]
      congr 1
      exact ih (n / 10) (by omega) (by omega)

/-- `len(str(n))` equals the decimal digit count of `n` (for `n ≥ 1`). -/
theorem natStr_length_eq_digits (n : Nat) (h : 1 ≤ n) :
    (natStr n).length = (Nat.digits 10 n).length := by
  unfold natStr decRep
  rw [decDigitsF_eq_digits (n + 1) n (by omega) h]
  simp

theorem flatten_get_uniform {α : Type} (m : Nat) :
    ∀ (L : List (List α)), (∀ l ∈ L, l.length = m) →
      ∀ i k, i < L.length → k < m →
        L.flatten.get? (i * m + k) = (L.get? i).bind (fun l => l.get? k) := by
  intro L
  induction L with
  | nil => intro _ i k hi _; simp at hi
  | cons l L ih =>
    intro hlen i k hi hk
    have hl : l.length = m := hlen l (by simp)
    cases i with
    | zero =>
      simp only [List.flatten_cons, Nat.zero_mul, Nat.zero_add]
      rw [List.get?_append (by omega)]
      simp
    | succ i' =>
      simp only [List.flatten_cons]
      have harith : (i' + 1) * m + k = l.length + (i' * m + k) := by
        rw [hl]; ring
      rw [harith, List.get?_append_right (by omega)]
      have : l.length + (i' * m + k) - l.length = i' * m + k := by omega
      rw [this, ih (fun x hx => hlen x (by simp [hx])) i' k (by simpa using hi) hk]
      simp

theorem flatten_length_uniform {α : Type} (m : Nat) :
    ∀ (L : List (List α)), (∀ l ∈ L, l.length = m) →
      L.flatten.length = L.length * m := by
  intro L
  induction L with
  | nil => intro _; simp
  | cons l L ih =>
    intro hlen
    simp only [List.flatten_cons, List.length_append, List.length_cons]
    rw [hlen l (by simp), ih (fun x hx => hlen x (by simp [hx]))]
    ring

/-- Claim C4: with `branches ≥ 2`, expansion yields `branches × |items|`
items, in branch-major order: the element at position
`i * |items| + k` is item `k` with its path prefixed by branch index `i`,
zero-padded to the decimal digit count of `branches - 1`, then `'_'`;
content is copied verbatim.  With `branches = 1` the input is returned
unchanged. -/
theorem expand_branches_spec (items : List Item) (branches : Nat) :
    (branches = 1 → expand_branches items branches = items) ∧
    (2 ≤ branches →
      (expand_branches items branches).length = branches * items.length ∧
      ∀ i k item, i < branches → items.get? k = some item →
        (expand_branches items branches).get? (i * items.length + k) =
          some { path := zfill (natStr i) ((Nat.digits 10 (branches - 1)).length)
                          ++ '_' :: item.path,
                 content := item.content }) := by
  constructor
  · intro h
    simp [expand_branches, h]
  · intro h2
    have hne : branches ≠ 1 := by omega
    have hpad : (natStr (branches - 1)).length =
        (Nat.digits 10 (branches - 1)).length :=
      natStr_length_eq_digits (branches - 1) (by omega)
    set g : Nat → Item → Item := fun i item =>
      { item with path := zfill (natStr i) ((natStr (branches - 1)).length)
                            ++ '_' :: item.path } with hg
    have hexp : expand_branches items branches =
        ((List.range branches).map (fun i => items.map (g i))).flatten := by
      simp only [expand_branches, hne, if_false, List.flatMap_def]
    have hlenL : ∀ l ∈ (List.range branches).map (fun i => items.map (g i)),
        l.length = items.length := by
      intro l hl
      obtain ⟨i, _, rfl⟩ := List.mem_map.mp hl
      simp
    constructor
    · rw [hexp, flatten_length_uniform items.length _ hlenL]
      simp
    · intro i k item hi hk
      rw [hexp,
        flatten_get_uniform items.length _ hlenL i k (by simpa using hi)
          (by
            have := List.get?_eq_some.mp hk
            exact this.1)]
      rw [List.get?_map, List.get?_range hi]
      simp only [Option.map_some', Option.some_bind, List.get?_map, hk,
        Option.map_some']
      rw [← hpad]

theorem expand_branches_spec_witness :
    expand_branches [⟨"a".toList, "c".toList⟩] 1 = [⟨"a".toList, "c".toList⟩] ∧
    (expand_branches [⟨"a".toList, "c".toList⟩] 11).length = 11 * 1 ∧
    (expand_branches [⟨"a".toList, "c".toList⟩] 11).get? (10 * 1 + 0) =
      some ⟨"10_a".toList, "c".toList⟩ := by
  refine ⟨(expand_branches_spec _ 1).1 rfl, ((expand_branches_spec _ 11).2 (by norm_num)).1, ?_⟩
  have h := ((expand_branches_spec [⟨"a".toList, "c".toList⟩] 11).2
    (by norm_num)).2 10 0 ⟨"a".toList, "c".toList⟩ (by norm_num) rfl
  have hlen : (Nat.digits 10 (11 - 1)).length = 2 := by
    rw [← natStr_length_eq_digits (11 - 1) (by norm_num)]
    decide
  rw [hlen] at h
  have h2 : (10 : Nat) * [(⟨"a".toList, "c".toList⟩ : Item)].length + 0 = 10 * 1 + 0 := by
    simp
  rw [h2] at h
  rw [h]
  decide

theorem process_item_path (backend : Str → Except Str Str) (tmpl : Str)
    (inc : Bool) (item : Item) :
    (process_item backend tmpl inc item).path = item.path := by
  simp only [process_item]
  cases h : backend (formatPrompt tmpl item.content) <;> simp [h]

theorem process_item_ok (backend : Str → Except Str Str) (tmpl : Str)
    (inc : Bool) (item : Item) (t : Str)
    (h : backend (formatPrompt tmpl item.content) = .ok t) :
    (process_item backend tmpl inc item).outcome = .success t := by
  simp only [process_item]
  rw [h]

theorem process_item_err (backend : Str → Except Str Str) (tmpl : Str)
    (inc : Bool) (item : Item) (m : Str)
    (h : backend (formatPrompt tmpl item.content) = .error m) :
    (process_item backend tmpl inc item).outcome = .failure m := by
  simp only [process_item]
  rw [h]

/-- Claim C1: whatever completion order the pool produces, `map_items`
collects exactly one result per expanded item before returning: the
result list has the items' length, and the result paths are a
permutation (a multiset bijection) of the item paths, each result's path
being its source item's path.  The concurrency bound plays no role in
what is collected. -/
theorem map_items_one_result_per_item (backend : Str → Except Str Str)
    (tmpl : Str) (inc : Bool) (items : List Item) (concurrency : Nat)
    (hc : 1 ≤ concurrency) (order : List (Fin items.length))
    (ho : order.Perm (List.finRange items.length)) :
    (map_items_collect (process_item backend tmpl inc) items concurrency
        order).length = items.length ∧
    ((map_items_collect (process_item backend tmpl inc) items concurrency
        order).map MapResult.path).Perm (items.map Item.path) := by
  have hpath : ∀ i : Fin items.length,
      (process_item backend tmpl inc (items.get i)).path =
        (items.get i).path := fun i => process_item_path backend tmpl inc _
  constructor
  · simp only [map_items_collect, List.length_map]
    rw [ho.length_eq, List.length_finRange]
  · have h1 : (map_items_collect (process_item backend tmpl inc) items
        concurrency order).map MapResult.path =
        order.map (fun i => (items.get i).path) := by
      simp only [map_items_collect, List.map_map]
      exact List.map_congr_left (fun i _ => hpath i)
    rw [h1]
    have h2 := ho.map (fun i => (items.get i).path)
    have h3 : (List.finRange items.length).map (fun i => (items.get i).path) =
        items.map Item.path := by
      conv_rhs => rw [← List.finRange_map_get items]
      rw [List.map_map]
      rfl
    rw [h3] at h2
    exact h2

theorem map_items_one_result_per_item_witness :
    (map_items_collect
      (process_item (fun _ => .ok "y".toList) [] false)
      [⟨"a".toList, "x".toList⟩] 1 (List.finRange 1)).length = 1 ∧
    ((map_items_collect
      (process_item (fun _ => .ok "y".toList) [] false)
      [⟨"a".toList, "x".toList⟩] 1 (List.finRange 1)).map MapResult.path).Perm
      ["a".toList] :=
  map_items_one_result_per_item (fun _ => .ok "y".toList) [] false
    [⟨"a".toList, "x".toList⟩] 1 (by norm_num) (List.finRange 1)
    (List.Perm.refl _)

/-- Claim C2: if exactly one of the submitted tasks hits a backend fault,
the collected results still cover every item: exactly one result is a
failure — carrying the fault's message and the faulting item's path — and
the other `N - 1` are successes.  The fault never escapes the per-item
task (`process_item` is total), so no sibling result is lost. -/
theorem map_items_failure_isolation (backend : Str → Except Str Str)
    (tmpl : Str) (inc : Bool) (items : List Item) (concurrency : Nat)
    (hc : 1 ≤ concurrency) (order : List (Fin items.length))
    (ho : order.Perm (List.finRange items.length)) (j : Fin items.length)
    (m : Str)
    (hfail : backend (formatPrompt tmpl (items.get j).content) = .error m)
    (hok : ∀ i : Fin items.length, i ≠ j →
      ∃ t, backend (formatPrompt tmpl (items.get i).content) = .ok t) :
    (map_items_collect (process_item backend tmpl inc) items concurrency
        order).length = items.length ∧
    (map_items_collect (process_item backend tmpl inc) items concurrency
        order).countP (fun r => r.outcome.isFailure) = 1 ∧
    (map_items_collect (process_item backend tmpl inc) items concurrency
        order).countP (fun r => r.outcome.isSuccess) = items.length - 1 ∧
    ∃ r ∈ map_items_collect (process_item backend tmpl inc) items concurrency
        order, r.path = (items.get j).path ∧ r.outcome = .failure m := by
  have hlen : (map_items_collect (process_item backend tmpl inc) items
      concurrency order).length = items.length := by
    simp only [map_items_collect, List.length_map]
    rw [ho.length_eq, List.length_finRange]
  have hcount : ∀ p : MapResult → Bool,
      (map_items_collect (process_item backend tmpl inc) items concurrency
        order).countP p =
      (List.finRange items.length).countP
        (fun i => p (process_item backend tmpl inc (items.get i))) := by
    intro p
    simp only [map_items_collect, List.countP_map]
    exact ho.countP_eq _
  have hfailcount : (map_items_collect (process_item backend tmpl inc) items
      concurrency order).countP (fun r => r.outcome.isFailure) = 1 := by
    rw [hcount]
    have hcongr : (List.finRange items.length).countP
        (fun i => (process_item backend tmpl inc (items.get i)).outcome.isFailure) =
        (List.finRange items.length).countP (fun i => i == j) := by
      apply List.countP_congr
      intro i _
      by_cases hij : i = j
      · subst hij
        rw [process_item_err backend tmpl inc _ m hfail]
        simp [Outcome.isFailure]
      · obtain ⟨t, ht⟩ := hok i hij
        rw [process_item_ok backend tmpl inc _ t ht]
        simp [Outcome.isFailure, hij]
    rw [hcongr, ← List.count_eq_countP,
      List.count_eq_one_of_mem (List.nodup_finRange _) (List.mem_finRange j)]
  refine ⟨hlen, hfailcount, ?_, ?_⟩
  · have hsplit := List.length_eq_countP_add_countP
      (fun r => r.outcome.isFailure)
      (map_items_collect (process_item backend tmpl inc) items concurrency order)
    have hcongr2 : (map_items_collect (process_item backend tmpl inc) items
        concurrency order).countP
          (fun r => decide ¬ r.outcome.isFailure = true) =
        (map_items_collect (process_item backend tmpl inc) items concurrency
          order).countP (fun r => r.outcome.isSuccess) := by
      apply List.countP_congr
      intro r _
      cases r.outcome <;> simp [Outcome.isFailure, Outcome.isSuccess]
    rw [hlen, hfailcount, hcongr2] at hsplit
    omega
  · refine ⟨process_item backend tmpl inc (items.get j), ?_, ?_, ?_⟩
    · exact List.mem_map_of_mem _ (ho.mem_iff.mpr (List.mem_finRange j))
    · exact process_item_path backend tmpl inc _
    · exact process_item_err backend tmpl inc _ m hfail

theorem map_items_failure_isolation_witness :
    (map_items_collect
      (process_item
        (fun p => if p = "x".toList then .error "boom".toList else .ok "ok".toList)
        [] false)
      [⟨"a".toList, "x".toList⟩, ⟨"b".toList, "y".toList⟩] 2
      (List.finRange 2)).countP (fun r => r.outcome.isFailure) = 1 ∧
    (map_items_collect
      (process_item
        (fun p => if p = "x".toList then .error "boom".toList else .ok "ok".toList)
        [] false)
      [⟨"a".toList, "x".toList⟩, ⟨"b".toList, "y".toList⟩] 2
      (List.finRange 2)).countP (fun r => r.outcome.isSuccess) = 2 - 1 := by
  have h := map_items_failure_isolation
    (fun p => if p = "x".toList then .error "boom".toList else .ok "ok".toList)
    [] false [⟨"a".toList, "x".toList⟩, ⟨"b".toList, "y".toList⟩] 2
    (by norm_num) (List.finRange 2) (List.Perm.refl _) ⟨0, by norm_num⟩
    "boom".toList rfl
    (by
      intro i hi
      fin_cases i
      · exact absurd rfl hi
      · exact ⟨"ok".toList, rfl⟩)
  exact ⟨h.2.1, h.2.2.1⟩

/-- Claim C8: for the `map` command, `--input` together with a `json` or
`jsonarr` *effective* output format — whether that format came from
`--oformat` or from the combined `--format` shortcut — fails validation
with the fixed error message (click prints it to stderr and exits 1),
and the failure is decided before the container is touched: the outcome
of `map_command_start` in that case is the same error for every `loads`
and every container text, while any other combination proceeds to
`parse_input` on the effective input format. -/
theorem cli_input_format_validation (loads : Str → Except Str JValue)
    (content : Str) (inc : Bool) (format : Option Format)
    (iformat oformat : Format) :
    (map_command_start loads content inc format iformat oformat =
        .error inputFormatErrorMsg ↔
      inc = true ∧
        ((match format with | some f => f | none => oformat) = .json ∨
         (match format with | some f => f | none => oformat) = .jsonarr)) ∧
    (¬ (inc = true ∧
        ((match format with | some f => f | none => oformat) = .json ∨
         (match format with | some f => f | none => oformat) = .jsonarr)) →
      map_command_start loads content inc format iformat oformat =
        .ok (parse_input loads content
          (match format with | some f => f | none => iformat))) := by
  cases format with
  | none =>
    cases inc <;> cases oformat <;>
      simp [map_command_start, map_command_formats]
  | some f =>
    cases inc <;> cases f <;>
      simp [map_command_start, map_command_formats]

theorem cli_input_format_validation_witness :
    (map_command_start miniLoads "x".toList true (some .jsonarr) .jsonl .jsonl =
      .error inputFormatErrorMsg) ∧
    (map_command_start miniLoads "x".toList true none .jsonl .json =
      .error inputFormatErrorMsg) := by
  constructor
  · exact (cli_input_format_validation miniLoads "x".toList true (some .jsonarr)
      .jsonl .jsonl).1.mpr ⟨rfl, Or.inr rfl⟩
  · exact (cli_input_format_validation miniLoads "x".toList true none
      .jsonl .json).1.mpr ⟨rfl, Or.inl rfl⟩

theorem foldl_append_flatten {α β : Type} (g : α → List β) :
    ∀ (l : List α) (pre : List β),
      l.foldl (fun acc r => acc ++ g r) pre = pre ++ (l.map g).flatten := by
  intro l
  induction l with
  | nil => intro pre; simp
  | cons x xs ih =>
    intro pre
    simp only [List.foldl_cons, List.map_cons, List.flatten_cons]
    rw [ih (pre ++ g x)]
    simp

/-- Claim C10: with an output file, the `jsonl` output format appends —
the previous file content survives as a prefix and the new records follow
it — while the `json` and `jsonarr` output formats truncate: the final
file content is independent of what was there before. -/
theorem output_file_append_vs_truncate (dumps : JValue → Str)
    (results : List MapResult) :
    (∀ pre, output_results_file dumps results .jsonl pre =
        pre ++ (results.map (fun r => dumps (resultJson r) ++ ['\n'])).flatten) ∧
    (∀ pre, output_results_file dumps results .json pre =
        output_results_file dumps results .json []) ∧
    (∀ pre, output_results_file dumps results .jsonarr pre =
        output_results_file dumps results .jsonarr []) := by
  refine ⟨?_, fun _ => rfl, fun _ => rfl⟩
  intro pre
  exact foldl_append_flatten _ results pre

theorem output_file_append_vs_truncate_witness :
    output_results_file miniDumps
      [⟨"a".toList, .success "y".toList, none⟩] .jsonl "OLD".toList =
    "OLD".toList ++
      (([⟨"a".toList, .success "y".toList, none⟩] : List MapResult).map
        (fun r => miniDumps (resultJson r) ++ ['\n'])).flatten :=
  (output_file_append_vs_truncate miniDumps
    [⟨"a".toList, .success "y".toList, none⟩]).1 "OLD".toList

/-- Claim C7 counterexample: decoding the positional array `["x"]`, the
map pipeline's parser assigns path `item_0`, but the archive extractor
passes `item_0.txt` to `extract_single_file` — not `item_{index}` as the
claim states for both decode sites. -/
theorem positional_path_counterexample :
    (parse_input miniLoads "[\"x\"]".toList .jsonarr).1 =
      [itemJson "item_0".toList (.str "x".toList)] ∧
    (extract_archive_calls miniLoads "[\"x\"]".toList .jsonarr).1 =
      [("item_0.txt".toList, .str "x".toList)] ∧
    "item_0.txt".toList ≠ "item_0".toList := by
  refine ⟨rfl, rfl, by decide⟩

/-- Claim C7 as amended: decoding a positional array assigns 0-based
synthetic paths at both decode sites, but with different shapes:
`item_{i}` in the map pipeline's `parse_input`, `item_{i}.txt` in the
archive extractor. -/
theorem positional_paths_by_site (loads : Str → Except Str JValue)
    (content : Str) (xs : List JValue)
    (h1 : loads content = .ok (.arr xs)) (h2 : pyStrip content = content) :
    (parse_input loads content .jsonarr).1 =
      xs.enum.map (fun iv => itemJson (itemPath iv.1) iv.2) ∧
    (extract_archive_calls loads content .jsonarr).1 =
      xs.enum.map (fun iv => (itemPath iv.1 ++ ".txt".toList, iv.2)) := by
  constructor
  · simp only [parse_input, h1]
  · simp only [extract_archive_calls, h2, h1]

theorem positional_paths_by_site_witness :
    (parse_input miniLoads "[\"x\", \"y\"]".toList .jsonarr).1 =
      ([JValue.str "x".toList, JValue.str "y".toList].enum.map
        (fun iv => itemJson (itemPath iv.1) iv.2)) ∧
    (extract_archive_calls miniLoads "[\"x\", \"y\"]".toList .jsonarr).1 =
      ([JValue.str "x".toList, JValue.str "y".toList].enum.map
        (fun iv => (itemPath iv.1 ++ ".txt".toList, iv.2))) :=
  positional_paths_by_site miniLoads "[\"x\", \"y\"]".toList
    [JValue.str "x".toList, JValue.str "y".toList] rfl rfl

theorem contains_iff_mem_keys (l : List Str) (k : Str) :
    l.contains k = true ↔ k ∈ l := by
  simp [List.contains_eq_any_beq]

theorem dictInsert_keys (d : List (Str × JValue)) (k : Str) (v : JValue) :
    (dictInsert d k v).map Prod.fst =
      if (d.map Prod.fst).contains k then d.map Prod.fst
      else d.map Prod.fst ++ [k] := by
  unfold dictInsert
  split
  · rw [List.map_map]
    apply List.map_congr_left
    intro kv _
    by_cases h : kv.1 = k
    · simp [h]
    · simp [h]
  · simp

theorem lookupKey_cons (kv : Str × JValue) (d : List (Str × JValue))
    (k' : Str) :
    lookupKey k' (kv :: d) = if kv.1 = k' then some kv.2 else lookupKey k' d := by
  unfold lookupKey
  rw [List.find?_cons]
  by_cases h : kv.1 = k'
  · simp [h]
  · simp [h]

theorem lookupKey_map_update (k : Str) (v : JValue) (k' : Str) :
    ∀ d : List (Str × JValue),
      lookupKey k' (d.map (fun kv => if kv.1 = k then (k, v) else kv)) =
        if k' = k then (lookupKey k d).map (fun _ => v) else lookupKey k' d := by
  intro d
  induction d with
  | nil => simp [lookupKey]
  | cons kv0 d ih =>
    simp only [List.map_cons]
    by_cases h0 : kv0.1 = k
    · rw [if_pos h0]
      by_cases hk : k' = k
      · subst hk
        simp only [lookupKey_cons, ih]
        simp [h0]
      · have e2 : ¬ (kv0.1 = k') := fun h => hk (h0 ▸ h).symm
        simp only [lookupKey_cons, ih]
        simp only [hk, if_false]
        simp [e2]
        intro h
        exact absurd h.symm hk
    · rw [if_neg h0]
      by_cases hk' : kv0.1 = k'
      · by_cases hk : k' = k
        · exact absurd (hk ▸ hk') h0
        · simp [lookupKey_cons, hk', hk]
      · by_cases hk : k' = k
        · subst hk
          simp [lookupKey_cons, ih, hk', h0]
        · simp [lookupKey_cons, ih, hk', hk]

theorem lookupKey_some_of_mem (k : Str) :
    ∀ d : List (Str × JValue), k ∈ d.map Prod.fst →
      ∃ w, lookupKey k d = some w := by
  intro d
  induction d with
  | nil => intro h; simp at h
  | cons kv d ih =>
    intro h
    rw [lookupKey_cons]
    by_cases hk : kv.1 = k
    · exact ⟨kv.2, by simp [hk]⟩
    · have hmem : k ∈ d.map Prod.fst := by
        simp only [List.map_cons, List.mem_cons] at h
        rcases h with h | h
        · exact absurd h.symm hk
        · exact h
      obtain ⟨w, hw⟩ := ih hmem
      exact ⟨w, by simp [hk, hw]⟩

theorem lookupKey_eq_none_of_not_mem (k : Str) (d : List (Str × JValue))
    (h : k ∉ d.map Prod.fst) : lookupKey k d = none := by
  unfold lookupKey
  rw [List.find?_eq_none.mpr]
  · rfl
  · intro kv hkv hp
    have h1 : kv.1 = k := by simpa using hp
    exact h (h1 ▸ List.mem_map_of_mem Prod.fst hkv)

theorem lookupKey_dictInsert (d : List (Str × JValue)) (k : Str) (v : JValue)
    (k' : Str) :
    lookupKey k' (dictInsert d k v) =
      if k' = k then some v else lookupKey k' d := by
  unfold dictInsert
  split
  · rename_i hcont
    rw [lookupKey_map_update]
    by_cases hk : k' = k
    · obtain ⟨w, hw⟩ := lookupKey_some_of_mem k d
        ((contains_iff_mem_keys _ _).mp hcont)
      simp [hk, hw]
    · simp [hk]
  · rename_i hcont
    have hnot : k ∉ d.map Prod.fst := fun h =>
      hcont ((contains_iff_mem_keys _ _).mpr h)
    by_cases hk : k' = k
    · subst hk
      unfold lookupKey
      rw [List.find?_append]
      have h1 := lookupKey_eq_none_of_not_mem k' d hnot
      unfold lookupKey at h1
      have h1' : List.find? (fun kv => decide (kv.1 = k')) d = none := by
        cases hf : List.find? (fun kv => decide (kv.1 = k')) d
        · rfl
        · rw [hf] at h1; simp at h1
      rw [h1']
      simp [List.find?_cons]
    · unfold lookupKey
      rw [List.find?_append]
      have e : ¬ (k = k') := fun h => hk h.symm
      have h2 : List.find? (fun kv => decide (kv.1 = k')) [(k, v)] = none := by
        simp [List.find?_cons, e]
      rw [h2]
      simp [hk]

theorem pyDict_concat (l : List (Str × JValue)) (kv : Str × JValue) :
    pyDict (l ++ [kv]) = dictInsert (pyDict l) kv.1 kv.2 := by
  unfold pyDict
  rw [List.foldl_concat]

theorem pyDict_keys (l : List (Str × JValue)) :
    ((pyDict l).map Prod.fst).Nodup ∧
      (∀ p, p ∈ (pyDict l).map Prod.fst ↔ p ∈ l.map Prod.fst) := by
  induction l using List.reverseRecOn with
  | nil => simp [pyDict]
  | append_singleton l kv ih =>
    obtain ⟨ihn, ihm⟩ := ih
    rw [pyDict_concat, dictInsert_keys]
    by_cases hc : ((pyDict l).map Prod.fst).contains kv.1 = true
    · rw [if_pos hc]
      have hmem : kv.1 ∈ (pyDict l).map Prod.fst :=
        (contains_iff_mem_keys _ _).mp hc
      refine ⟨ihn, fun p => ?_⟩
      rw [ihm p]
      simp only [List.map_append, List.mem_append, List.map_cons,
        List.map_nil, List.mem_singleton]
      constructor
      · exact Or.inl
      · rintro (h | h)
        · exact h
        · rw [h]
          exact (ihm kv.1).mp hmem
    · rw [if_neg hc]
      have hnmem : kv.1 ∉ (pyDict l).map Prod.fst := fun h =>
        hc ((contains_iff_mem_keys _ _).mpr h)
      constructor
      · simp [List.nodup_append, ihn, hnmem]
      · intro p
        simp only [List.mem_append, List.mem_singleton, ihm p,
          List.map_append, List.map_cons, List.map_nil]

theorem lookupKey_pyDict (p : Str) (l : List (Str × JValue)) :
    lookupKey p (pyDict l) =
      (l.reverse.find? (fun kv => kv.1 = p)).map (fun kv => kv.2) := by
  induction l using List.reverseRecOn with
  | nil => simp [pyDict, lookupKey]
  | append_singleton l kv ih =>
    rw [pyDict_concat, lookupKey_dictInsert, List.reverse_append]
    simp only [List.reverse_singleton, List.singleton_append, List.find?_cons]
    by_cases h : p = kv.1
    · simp [h]
    · have h2 : ¬ (kv.1 = p) := fun hh => h hh.symm
      simp [h, h2, ih]

theorem pyDict_eq_self_of_nodup :
    ∀ l : List (Str × JValue), (l.map Prod.fst).Nodup → pyDict l = l := by
  intro l
  induction l using List.reverseRecOn with
  | nil => intro _; rfl
  | append_singleton l kv ih =>
    intro hn
    simp only [List.map_append, List.map_cons, List.map_nil] at hn
    have hn' : (l.map Prod.fst).Nodup := (List.nodup_append.mp hn).1
    have hnk : kv.1 ∉ l.map Prod.fst := by
      have := (List.nodup_append.mp hn).2.2
      intro hmem
      exact this hmem (by simp)
    rw [pyDict_concat, ih hn']
    unfold dictInsert
    rw [if_neg]
    intro hc
    exact hnk ((contains_iff_mem_keys _ _).mp hc)

/-- Claim C9: the keyed-object encoding of a result list has exactly one
entry per distinct path — its key list is duplicate-free and covers
exactly the result paths — and the value stored under a path is the value
of the *last* result in the sequence with that path; earlier results with
the same path are dropped, so this encoding does not keep one entry per
Result. -/
theorem keyed_object_one_entry_per_path (results : List MapResult) :
    ((output_results_obj results).map Prod.fst).Nodup ∧
    (∀ p, p ∈ (output_results_obj results).map Prod.fst ↔
      p ∈ results.map MapResult.path) ∧
    (∀ p, lookupKey p (output_results_obj results) =
      (results.reverse.find? (fun r => r.path = p)).map resultValue) := by
  unfold output_results_obj
  refine ⟨(pyDict_keys _).1, fun p => ?_, fun p => ?_⟩
  · rw [(pyDict_keys _).2 p, List.map_map]
    rfl
  · rw [lookupKey_pyDict, ← List.map_reverse, List.find?_map, Option.map_map]
    rfl

theorem keyed_object_one_entry_per_path_witness :
    lookupKey "a".toList (output_results_obj
      [⟨"a".toList, .success "first".toList, none⟩,
       ⟨"a".toList, .success "second".toList, none⟩]) =
      some (.str "second".toList) := by
  have h := (keyed_object_one_entry_per_path
    [⟨"a".toList, .success "first".toList, none⟩,
     ⟨"a".toList, .success "second".toList, none⟩]).2.2 "a".toList
  rw [h]
  rfl

/-- The container text whose lines are the given list (lines joined by
single newlines). -/
def joinNl : List Str → Str
  | [] => []
  | [l] => l
  | l :: l2 :: rest => l ++ '\n' :: joinNl (l2 :: rest)

theorem pySplit_no_sep (sep : Char) :
    ∀ l : Str, sep ∉ l → pySplit sep l = [l] := by
  intro l
  induction l with
  | nil => intro _; rfl
  | cons c rest ih =>
    intro h
    have hc : ¬ (c = sep) := fun hc => h (hc ▸ List.mem_cons_self c rest)
    have hr : sep ∉ rest := fun hr => h (List.mem_cons_of_mem c hr)
    simp only [pySplit, hc, if_false, ih hr]

theorem pySplit_append_sep (sep : Char) :
    ∀ l t : Str, sep ∉ l →
      pySplit sep (l ++ sep :: t) = l :: pySplit sep t := by
  intro l
  induction l with
  | nil => intro t _; simp [pySplit]
  | cons c rest ih =>
    intro t h
    have hc : ¬ (c = sep) := fun hc => h (hc ▸ List.mem_cons_self c rest)
    have hr : sep ∉ rest := fun hr => h (List.mem_cons_of_mem c hr)
    simp only [List.cons_append, pySplit, hc, if_false, List.append_eq,
      ih t hr]

theorem pySplit_joinNl :
    ∀ lines : List Str, lines ≠ [] → (∀ l ∈ lines, '\n' ∉ l) →
      pySplit '\n' (joinNl lines) = lines := by
  intro lines
  induction lines with
  | nil => intro h _; exact absurd rfl h
  | cons l rest ih =>
    intro _ hn
    cases rest with
    | nil => exact pySplit_no_sep '\n' l (hn l (by simp))
    | cons l2 rest2 =>
      show pySplit '\n' (l ++ '\n' :: joinNl (l2 :: rest2)) = _
      rw [pySplit_append_sep '\n' l _ (hn l (by simp))]
      rw [ih (by simp) (fun x hx => hn x (List.mem_cons_of_mem l hx))]

theorem filterMap_all_some {α β : Type} (g : α → Option β) (f : α → β) :
    ∀ l : List α, (∀ a ∈ l, g a = some (f a)) → l.filterMap g = l.map f := by
  intro l
  induction l with
  | nil => intro _; rfl
  | cons a rest ih =>
    intro h
    rw [List.filterMap_cons, h a (by simp), List.map_cons,
      ih (fun x hx => h x (List.mem_cons_of_mem a hx))]

theorem filterMap_all_none {α β : Type} (g : α → Option β) :
    ∀ l : List α, (∀ a ∈ l, g a = none) → l.filterMap g = [] := by
  intro l
  induction l with
  | nil => intro _; rfl
  | cons a rest ih =>
    intro h
    rw [List.filterMap_cons, h a (by simp),
      ih (fun x hx => h x (List.mem_cons_of_mem a hx))]

/-- The per-line decode outcome of the `jsonl` branch of `parse_input`:
skip blank lines, keep parsed values. -/
def jsonlItem (loads : Str → Except Str JValue) (l : Str) : Option JValue :=
  if pyStrip l = [] then none else (loads l).toOption

/-- The per-line warning of the `jsonl` branch of `parse_input`. -/
def jsonlWarn (loads : Str → Except Str JValue) (l : Str) : Option Str :=
  if pyStrip l = [] then none
  else
    match loads l with
    | .ok _ => none
    | .error e => some (warnLine e)

theorem parse_jsonl_foldl (loads : Str → Except Str JValue) :
    ∀ (lines : List Str) (acc : List JValue × List Str),
      lines.foldl
        (fun acc line =>
          if pyStrip line = [] then acc
          else
            match loads line with
            | .ok item => (acc.1 ++ [item], acc.2)
            | .error e => (acc.1, acc.2 ++ [warnLine e])) acc =
      (acc.1 ++ lines.filterMap (jsonlItem loads),
       acc.2 ++ lines.filterMap (jsonlWarn loads)) := by
  intro lines
  induction lines with
  | nil => intro acc; simp
  | cons l rest ih =>
    intro acc
    simp only [List.foldl_cons]
    by_cases hb : pyStrip l = []
    · rw [if_pos hb, ih]
      simp [jsonlItem, jsonlWarn, hb, List.filterMap_cons]
    · rw [if_neg hb]
      cases hl : loads l with
      | ok v =>
        rw [ih]
        simp [jsonlItem, jsonlWarn, hb, hl, List.filterMap_cons,
          Except.toOption]
      | error e =>
        rw [ih]
        simp [jsonlItem, jsonlWarn, hb, hl, List.filterMap_cons,
          Except.toOption]

theorem parse_input_jsonl_eq (loads : Str → Except Str JValue)
    (content : Str) :
    parse_input loads content .jsonl =
      ((pySplit '\n' content).filterMap (jsonlItem loads),
       (pySplit '\n' content).filterMap (jsonlWarn loads)) := by
  show (pySplit '\n' content).foldl _ ([], []) = _
  rw [parse_jsonl_foldl]
  simp

theorem findBlocksF_of_no_lt :
    ∀ (f : Nat) (s : Str), '<' ∉ s → findBlocksF f s = [] := by
  intro f
  induction f with
  | zero => intro s _; rfl
  | succ f ih =>
    intro s h
    cases s with
    | nil => rfl
    | cons c rest =>
      have hc : ¬ (c = '<') := fun hc => h (hc ▸ List.mem_cons_self c rest)
      simp only [findBlocksF, hc, if_false]
      exact ih rest (fun hr => h (List.mem_cons_of_mem c hr))

/-- Claim C6 as amended: the skip-with-warning element granularity holds
for the line-delimited format only — one malformed line yields one
warning and every other well-formed line is still decoded.  For the
keyed-object and positional-array formats the whole container is a single
JSON document: when it fails to parse, decoding warns once and yields
*no* items, even for elements inside it that would be well-formed alone.
The tagged formats never warn: text the block regex does not match is
passed over silently. -/
theorem decode_failure_granularity (loads : Str → Except Str JValue)
    (A B : List Str) (bad : Str) (e : Str) (f : Str → JValue)
    (c2 c3 c4 : Str) (e2 e3 : Str) :
    ((∀ l ∈ A ++ B, '\n' ∉ l ∧ pyStrip l ≠ [] ∧ loads l = .ok (f l)) →
      '\n' ∉ bad → pyStrip bad ≠ [] → loads bad = .error e →
      parse_input loads (joinNl (A ++ bad :: B)) .jsonl =
        ((A ++ B).map f, [warnLine e])) ∧
    (loads c2 = .error e2 →
      parse_input loads c2 .json = ([], [warnJson e2])) ∧
    (loads c3 = .error e3 →
      parse_input loads c3 .jsonarr = ([], [warnJsonArr e3])) ∧
    ('<' ∉ c4 →
      parse_input loads c4 .xml = ([], []) ∧
      parse_input loads c4 .xmlish = ([], [])) := by
  refine ⟨?_, ?_, ?_, ?_⟩
  · intro hAB hbn hbb hbad
    have hsplit : pySplit '\n' (joinNl (A ++ bad :: B)) = A ++ bad :: B := by
      apply pySplit_joinNl _ (by simp)
      intro l hl
      rcases List.mem_append.mp hl with h | h
      · exact (hAB l (List.mem_append.mpr (Or.inl h))).1
      · rcases List.mem_cons.mp h with h | h
        · exact h ▸ hbn
        · exact (hAB l (List.mem_append.mpr (Or.inr h))).1
    rw [parse_input_jsonl_eq, hsplit]
    have hitems : (A ++ bad :: B).filterMap (jsonlItem loads) =
        (A ++ B).map f := by
      rw [List.filterMap_append, List.filterMap_cons]
      have hbaditem : jsonlItem loads bad = none := by
        simp [jsonlItem, hbb, hbad, Except.toOption]
      rw [hbaditem]
      rw [filterMap_all_some (jsonlItem loads) f A
        (fun l hl => by
          obtain ⟨_, h2, h3⟩ := hAB l (List.mem_append.mpr (Or.inl hl))
          simp [jsonlItem, h2, h3, Except.toOption]),
        filterMap_all_some (jsonlItem loads) f B
        (fun l hl => by
          obtain ⟨_, h2, h3⟩ := hAB l (List.mem_append.mpr (Or.inr hl))
          simp [jsonlItem, h2, h3, Except.toOption])]
      simp
    have hwarns : (A ++ bad :: B).filterMap (jsonlWarn loads) =
        [warnLine e] := by
      rw [List.filterMap_append, List.filterMap_cons]
      have hbadwarn : jsonlWarn loads bad = some (warnLine e) := by
        simp [jsonlWarn, hbb, hbad]
      rw [hbadwarn]
      rw [filterMap_all_none (jsonlWarn loads) A
        (fun l hl => by
          obtain ⟨_, h2, h3⟩ := hAB l (List.mem_append.mpr (Or.inl hl))
          simp [jsonlWarn, h2, h3]),
        filterMap_all_none (jsonlWarn loads) B
        (fun l hl => by
          obtain ⟨_, h2, h3⟩ := hAB l (List.mem_append.mpr (Or.inr hl))
          simp [jsonlWarn, h2, h3])]
      simp
    rw [hitems, hwarns]
  · intro h
    simp only [parse_input, h]
  · intro h
    simp only [parse_input, h]
  · intro h
    unfold parse_input findBlocks
    rw [findBlocksF_of_no_lt _ _ h]
    exact ⟨rfl, rfl⟩

/-- Claim C6 counterexample: in the keyed-object format, a container with
one well-formed entry (`"a": "x"`) and one malformed element decodes to
*zero* items with one warning — the well-formed element is not preserved,
so element-granularity partial failure does not hold for every format.
The second conjunct shows the same entry alone is well-formed. -/
theorem decode_failure_counterexample :
    parse_input miniLoads "\x7b\"a\": \"x\", nope\x7d".toList .json =
      ([], [warnJson "Expecting property name".toList]) ∧
    (parse_input miniLoads "\x7b\"a\": \"x\"\x7d".toList .json).1 =
      [itemJson "a".toList (.str "x".toList)] :=
  ⟨rfl, rfl⟩

theorem decode_failure_granularity_witness :
    parse_input miniLoads
      (joinNl (["\x7b\"p\": \"q\"\x7d".toList] ++ "nope".toList ::
        ["\x7b\"r\": \"s\"\x7d".toList])) .jsonl =
      ((["\x7b\"p\": \"q\"\x7d".toList] ++ ["\x7b\"r\": \"s\"\x7d".toList]).map
        (fun l => (miniLoads l).toOption.getD (.str [])),
       [warnLine "Expecting value".toList]) := by
  have h := (decode_failure_granularity miniLoads
    ["\x7b\"p\": \"q\"\x7d".toList] ["\x7b\"r\": \"s\"\x7d".toList]
    "nope".toList "Expecting value".toList
    (fun l => (miniLoads l).toOption.getD (.str []))
    [] [] [] [] []).1
    (by
      intro l hl
      fin_cases hl
      · exact ⟨by decide, by decide, rfl⟩
      · exact ⟨by decide, by decide, rfl⟩)
    (by decide) (by decide) rfl
  exact h

/-! ## Round-trip machinery (claim C3) -/

theorem findBlocksF_nil : ∀ f, findBlocksF f [] = [] := by
  intro f
  cases f <;> rfl

theorem pyStrip_append_nl (s : Str)
    (h1 : ∀ c, s.head? = some c → isPyWS c = false)
    (h2 : ∀ c, s.getLast? = some c → isPyWS c = false) :
    pyStrip (s ++ ['\n']) = s := by
  cases s with
  | nil => decide
  | cons c t =>
    have hc : isPyWS c = false := h1 c rfl
    unfold pyStrip
    rw [List.cons_append, List.dropWhile_cons, hc]
    simp only [Bool.false_eq_true, if_false]
    rw [show (c :: (t ++ ['\n'])).reverse = '\n' :: (c :: t).reverse by
      rw [← List.cons_append, List.reverse_append]; rfl]
    rw [List.dropWhile_cons]
    simp only [show isPyWS '\n' = true by decide, if_true]
    obtain ⟨d, hd⟩ : ∃ d, (c :: t).getLast? = some d := by
      cases h : (c :: t).getLast? with
      | none => simp at h
      | some d => exact ⟨d, rfl⟩
    have hdws : isPyWS d = false := h2 d hd
    have hrev : (c :: t).reverse.head? = some d := by
      rw [List.head?_reverse]
      exact hd
    cases hrevs : (c :: t).reverse with
    | nil => simp [hrevs] at hrev
    | cons d0 rr =>
      rw [hrevs] at hrev
      simp only [List.head?_cons, Option.some.injEq] at hrev
      subst hrev
      rw [List.dropWhile_cons, hdws]
      simp only [Bool.false_eq_true, if_false]
      rw [← hrevs, List.reverse_reverse]

theorem pyStrip_ne_nil_of_head (s : Str) (c : Char)
    (h : s.head? = some c) (hc : isPyWS c = false) : pyStrip s ≠ [] := by
  cases s with
  | nil => simp at h
  | cons c0 t =>
    simp only [List.head?_cons, Option.some.injEq] at h
    rw [← h] at hc
    unfold pyStrip
    rw [List.dropWhile_cons, hc]
    simp only [Bool.false_eq_true, if_false]
    intro hcontra
    have hnil : List.dropWhile isPyWS (c0 :: t).reverse = [] := by
      cases hdw : List.dropWhile isPyWS (c0 :: t).reverse
      · rfl
      · rw [hdw] at hcontra
        simp at hcontra
    have hall := List.dropWhile_eq_nil_iff.mp hnil
    have := hall c0 (by simp)
    rw [hc] at this
    exact absurd this (by simp)

theorem joinNl_head? (l0 : Str) (rest : List Str) (h : l0 ≠ []) :
    (joinNl (l0 :: rest)).head? = l0.head? := by
  cases rest with
  | nil => rfl
  | cons l2 r =>
    show (l0 ++ '\n' :: joinNl (l2 :: r)).head? = l0.head?
    cases l0 with
    | nil => exact absurd rfl h
    | cons c t => rfl

theorem joinNl_getLast? :
    ∀ (ls : List Str) (lastl : Str),
      ls.getLast? = some lastl → lastl ≠ [] →
      (joinNl ls).getLast? = lastl.getLast? := by
  intro ls
  induction ls with
  | nil => intro lastl h; simp at h
  | cons x xs ih =>
    intro lastl hlast hne
    cases xs with
    | nil =>
      simp only [List.getLast?_singleton, Option.some.injEq] at hlast
      subst hlast
      rfl
    | cons l2 r =>
      have hlast2 : (l2 :: r).getLast? = some lastl := by
        rw [List.getLast?_cons_cons] at hlast
        exact hlast
      show (x ++ '\n' :: joinNl (l2 :: r)).getLast? = lastl.getLast?
      rw [List.getLast?_append]
      have hj := ih lastl hlast2 hne
      obtain ⟨d, hd⟩ : ∃ d, lastl.getLast? = some d := by
        cases h : lastl.getLast? with
        | none => exact absurd (List.getLast?_eq_none_iff.mp h) hne
        | some d => exact ⟨d, rfl⟩
      have hcons : ('\n' :: joinNl (l2 :: r)).getLast? = some d := by
        rw [show ('\n' :: joinNl (l2 :: r)) = ['\n'] ++ joinNl (l2 :: r) from rfl,
          List.getLast?_append, hj, hd]
        rfl
      rw [hcons, hd]
      rfl

theorem flatten_map_nl :
    ∀ (lines : List Str), lines ≠ [] →
      (lines.map (fun l => l ++ ['\n'])).flatten = joinNl lines ++ ['\n'] := by
  intro lines
  induction lines with
  | nil => intro h; exact absurd rfl h
  | cons l rest ih =>
    intro _
    cases rest with
    | nil => simp [joinNl]
    | cons l2 r =>
      rw [List.map_cons, List.flatten_cons, ih (by simp)]
      show l ++ ['\n'] ++ (joinNl (l2 :: r) ++ ['\n']) =
        (l ++ '\n' :: joinNl (l2 :: r)) ++ ['\n']
      simp


set_option maxHeartbeats 2000000 in
theorem htmlUnescape_cons_plain (c : Char) (rest : Str) (hc : c ≠ '&') :
    htmlUnescape (c :: rest) = c :: htmlUnescape rest := by
  conv_lhs => unfold htmlUnescape
  split
  all_goals first
  | (rename_i heq
     injection heq with h1 h2
     exact absurd h1 hc)
  | (rename_i heq
     injection heq with h1 h2
     rw [h1, h2])
  | (rename_i heq
     exact absurd heq (by simp))

theorem htmlUnescape_escapeChar (c : Char) (rest : Str) :
    htmlUnescape (htmlEscapeChar c ++ rest) = c :: htmlUnescape rest := by
  by_cases h1 : c = '&'
  · subst h1; rfl
  · by_cases h2 : c = '<'
    · subst h2; rfl
    · by_cases h3 : c = '>'
      · subst h3; rfl
      · by_cases h4 : c = '"'
        · subst h4; rfl
        · by_cases h5 : c = '\''
          · subst h5; rfl
          · rw [show htmlEscapeChar c = [c] by
              simp [htmlEscapeChar, h1, h2, h3, h4, h5]]
            exact htmlUnescape_cons_plain c rest h1

theorem htmlUnescape_htmlEscape (s : Str) :
    htmlUnescape (htmlEscape s) = s := by
  induction s with
  | nil => rfl
  | cons c rest ih =>
    show htmlUnescape (htmlEscapeChar c ++ htmlEscape rest) = c :: rest
    rw [htmlUnescape_escapeChar, ih]

theorem htmlEscapeChar_no_lt (c : Char) : '<' ∉ htmlEscapeChar c := by
  unfold htmlEscapeChar
  split_ifs with h1 h2 h3 h4 h5
  · decide
  · decide
  · decide
  · decide
  · decide
  · simp only [List.mem_singleton]
    exact fun hcc => h2 hcc.symm

theorem htmlEscape_no_lt (s : Str) : '<' ∉ htmlEscape s := by
  intro h
  obtain ⟨c, _, hin⟩ := List.mem_flatMap.mp h
  exact htmlEscapeChar_no_lt c hin

/-- A path character that survives the tag transform followed by its
reverse: a tag character other than `'_'`, or `'.'` (which round-trips
through `'_'`). -/
def survivesChar (c : Char) : Bool := (isTagChar c && c ≠ '_') || c = '.'

/-- The common case of the tagged formats: a nonempty path over
characters that survive tag transform and reverse. -/
def pathSurvives (p : Str) : Prop := p ≠ [] ∧ ∀ c ∈ p, survivesChar c = true

theorem tagToPath_tagOf (p : Str) (h : ∀ c ∈ p, survivesChar c = true) :
    tagToPath (tagOf p) = p := by
  unfold tagToPath tagOf
  rw [List.map_map]
  have : ∀ c ∈ p, ((fun c => if c = '_' then '.' else c) ∘
      (fun c => if isTagChar c then c else '_')) c = c := by
    intro c hc
    have hs := h c hc
    simp only [survivesChar, Bool.or_eq_true, Bool.and_eq_true,
      decide_eq_true_eq] at hs
    rcases hs with ⟨ht, hne⟩ | hdot
    · simp only [Function.comp_apply, ht, if_true]
      simp only [bne_iff_ne, ne_eq] at hne
      simp [hne]
    · subst hdot
      simp [isTagChar]
  rw [List.map_congr_left this]
  exact List.map_id p

theorem tagOf_no_gt (p : Str) : '>' ∉ tagOf p := by
  intro h
  obtain ⟨c, _, hc⟩ := List.mem_map.mp h
  by_cases ht : isTagChar c = true
  · rw [if_pos ht] at hc
    subst hc
    simp [isTagChar] at ht
  · rw [if_neg ht] at hc
    exact absurd hc.symm (by decide)

theorem tagOf_ne_nil (p : Str) (h : p ≠ []) : tagOf p ≠ [] := by
  unfold tagOf
  simpa using h

theorem takeWhile_tag (r : Str) :
    ∀ tag : Str, '>' ∉ tag →
      (tag ++ '>' :: r).takeWhile (fun c => c ≠ '>') = tag ∧
      (tag ++ '>' :: r).dropWhile (fun c => c ≠ '>') = '>' :: r := by
  intro tag
  induction tag with
  | nil =>
    intro _
    constructor
    · simp [List.takeWhile_cons]
    · simp [List.dropWhile_cons]
  | cons c t ih =>
    intro h
    have hc : c ≠ '>' := fun hh => h (hh ▸ List.mem_cons_self c t)
    have ht : '>' ∉ t := fun hh => h (List.mem_cons_of_mem c hh)
    obtain ⟨ih1, ih2⟩ := ih ht
    have hdec : (decide (c ≠ '>')) = true := by simp [hc]
    constructor
    · show List.takeWhile (fun c => decide (c ≠ '>')) (c :: (t ++ '>' :: r)) = _
      rw [List.takeWhile_cons, hdec]
      simp only [if_true]
      rw [ih1]
    · show List.dropWhile (fun c => decide (c ≠ '>')) (c :: (t ++ '>' :: r)) = _
      rw [List.dropWhile_cons, hdec]
      simp only [if_true]
      exact ih2

theorem takeTag_block (tag r : Str) (hne : tag ≠ []) (hgt : '>' ∉ tag) :
    takeTag (tag ++ '>' :: r) = some (tag, r) := by
  obtain ⟨h1, h2⟩ := takeWhile_tag r tag hgt
  unfold takeTag
  rw [h1, h2, if_neg hne]

theorem takeTag_length (s tag a : Str)
    (h : takeTag s = some (tag, a)) : a.length < s.length := by
  unfold takeTag at h
  by_cases htw : s.takeWhile (fun c => c ≠ '>') = []
  · rw [htw] at h
    simp at h
  · rw [if_neg htw] at h
    cases hdw : s.dropWhile (fun c => c ≠ '>') with
    | nil => rw [hdw] at h; simp at h
    | cons c rest =>
      rw [hdw] at h
      injection h with h'
      injection h' with h1 h2
      have hsuffix : (s.dropWhile (fun c => decide (c ≠ '>'))).length ≤
          s.length :=
        (List.dropWhile_suffix _).length_le
      rw [hdw] at hsuffix
      simp only [List.length_cons] at hsuffix
      rw [← h2]
      omega

theorem findSub_self (pat rest : Str) (hne : pat ≠ []) :
    findSub pat (pat ++ rest) = some 0 := by
  cases pat with
  | nil => exact absurd rfl hne
  | cons p pt =>
    have hpre : (p :: pt).isPrefixOf ((p :: pt) ++ rest) = true :=
      List.isPrefixOf_iff_prefix.mpr ⟨rest, rfl⟩
    show findSub (p :: pt) (p :: (pt ++ rest)) = some 0
    simp only [findSub]
    rw [show ((p :: pt).isPrefixOf (p :: (pt ++ rest))) = true from hpre]
    simp

theorem findSub_at (pt : Str) :
    ∀ (a rest : Str), '<' ∉ a →
      findSub ('<' :: pt) (a ++ ('<' :: pt) ++ rest) = some a.length := by
  intro a
  induction a with
  | nil =>
    intro rest _
    simp only [List.nil_append, List.length_nil]
    exact findSub_self ('<' :: pt) rest (by simp)
  | cons c a' ih =>
    intro rest h
    have hc : c ≠ '<' := fun hh => h (hh ▸ List.mem_cons_self c a')
    have ha : '<' ∉ a' := fun hh => h (List.mem_cons_of_mem c hh)
    have hfalse : ('<' :: pt).isPrefixOf
        (c :: (a' ++ ('<' :: pt) ++ rest)) = false := by
      apply Bool.eq_false_iff.mpr
      intro htrue
      obtain ⟨t, ht⟩ := List.isPrefixOf_iff_prefix.mp htrue
      rw [List.cons_append] at ht
      injection ht with h1 _
      exact hc h1.symm
    show findSub ('<' :: pt) (c :: (a' ++ ('<' :: pt) ++ rest)) = _
    simp only [findSub]
    rw [show (('<' :: pt).isPrefixOf (c :: (a' ++ ('<' :: pt) ++ rest))) =
      false from hfalse]
    simp only [Bool.false_eq_true, if_false]
    rw [ih rest ha]
    rfl

theorem findBlocksF_stable :
    ∀ (f : Nat) (s : Str) (g : Nat), s.length ≤ f → s.length ≤ g →
      findBlocksF f s = findBlocksF g s := by
  intro f
  induction f with
  | zero =>
    intro s g hf _
    have : s = [] := List.length_eq_zero.mp (by omega)
    subst this
    rw [findBlocksF_nil, findBlocksF_nil]
  | succ f ih =>
    intro s g hf hg
    cases s with
    | nil => rw [findBlocksF_nil, findBlocksF_nil]
    | cons c rest =>
      simp only [List.length_cons] at hf hg
      cases g with
      | zero => omega
      | succ g' =>
        show findBlocksF (f + 1) (c :: rest) = findBlocksF (g' + 1) (c :: rest)
        simp only [findBlocksF]
        by_cases hc : c = '<'
        · rw [if_pos hc, if_pos hc]
          cases htt : takeTag rest with
          | none =>
            show findBlocksF f rest = findBlocksF g' rest
            exact ih rest g' (by omega) (by omega)
          | some ta =>
            obtain ⟨tag, afterGt⟩ := ta
            have halen := takeTag_length rest tag afterGt htt
            show (match findSub (closeTag tag) afterGt with
              | some i => (tag, afterGt.take i) :: findBlocksF f
                  (afterGt.drop (i + (closeTag tag).length))
              | none => findBlocksF f rest) =
              (match findSub (closeTag tag) afterGt with
              | some i => (tag, afterGt.take i) :: findBlocksF g'
                  (afterGt.drop (i + (closeTag tag).length))
              | none => findBlocksF g' rest)
            cases hfs : findSub (closeTag tag) afterGt with
            | none =>
              exact ih rest g' (by omega) (by omega)
            | some i =>
              show (tag, afterGt.take i) :: findBlocksF f
                  (afterGt.drop (i + (closeTag tag).length)) =
                (tag, afterGt.take i) :: findBlocksF g'
                  (afterGt.drop (i + (closeTag tag).length))
              have hdrop : (afterGt.drop (i + (closeTag tag).length)).length ≤
                  afterGt.length := by
                rw [List.length_drop]
                omega
              rw [ih (afterGt.drop (i + (closeTag tag).length)) g'
                (by omega) (by omega)]
        · rw [if_neg hc, if_neg hc]
          exact ih rest g' (by omega) (by omega)

theorem findBlocks_skip (c : Char) (s : Str) (hc : c ≠ '<') :
    findBlocks (c :: s) = findBlocks s := by
  unfold findBlocks
  show findBlocksF (s.length + 1) (c :: s) = _
  simp only [findBlocksF, hc]
  simp

theorem findBlocksF_step (f : Nat) (tag R : Str) (hne : tag ≠ [])
    (hgt : '>' ∉ tag) (i : Nat)
    (hfs : findSub (closeTag tag) R = some i) :
    findBlocksF (f + 1) ('<' :: (tag ++ '>' :: R)) =
      (tag, R.take i) :: findBlocksF f (R.drop (i + (closeTag tag).length)) := by
  simp only [findBlocksF, if_true]
  rw [takeTag_block tag R hne hgt]
  show (match findSub (closeTag tag) R with
    | some i => (tag, R.take i) ::
        findBlocksF f (R.drop (i + (closeTag tag).length))
    | none => findBlocksF f (tag ++ '>' :: R)) = _
  rw [hfs]

theorem findBlocks_block (tag body s : Str) (hne : tag ≠ [])
    (hgt : '>' ∉ tag) (hlt : '<' ∉ body) :
    findBlocks (blockText tag body ++ s) =
      (tag, '\n' :: body ++ ['\n']) :: findBlocks s := by
  have hinner_lt : '<' ∉ ('\n' :: body ++ ['\n']) := by
    intro hmem
    simp only [List.mem_cons, List.mem_append, List.mem_singleton] at hmem
    rcases hmem with (h | h) | h
    · exact absurd h (by decide)
    · exact hlt h
    · exact absurd h (by decide)
  have hdecomp : blockText tag body ++ s =
      '<' :: (tag ++ '>' ::
        (('\n' :: body ++ ['\n']) ++ (closeTag tag ++ s))) := by
    unfold blockText closeTag
    simp
  have hfs : findSub (closeTag tag)
      (('\n' :: body ++ ['\n']) ++ (closeTag tag ++ s)) =
      some ('\n' :: body ++ ['\n']).length := by
    rw [show ('\n' :: body ++ ['\n']) ++ (closeTag tag ++ s) =
        ('\n' :: body ++ ['\n']) ++ closeTag tag ++ s by simp]
    rw [show closeTag tag = '<' :: ('/' :: tag ++ ['>']) from rfl]
    exact findSub_at ('/' :: tag ++ ['>']) ('\n' :: body ++ ['\n']) s hinner_lt
  unfold findBlocks
  rw [hdecomp]
  simp only [List.length_cons]
  rw [findBlocksF_step _ tag _ hne hgt _ hfs]
  rw [List.take_left ('\n' :: body ++ ['\n']) (closeTag tag ++ s)]
  rw [show ('\n' :: body ++ ['\n']).length + (closeTag tag).length =
      (('\n' :: body ++ ['\n']) ++ closeTag tag).length by
    simp only [List.length_append, List.length_cons]]
  rw [show ('\n' :: body ++ ['\n']) ++ (closeTag tag ++ s) =
      (('\n' :: body ++ ['\n']) ++ closeTag tag) ++ s by simp]
  rw [List.drop_left (('\n' :: body ++ ['\n']) ++ closeTag tag) s]
  congr 1
  apply findBlocksF_stable
  · simp only [List.length_append, List.length_cons]
    omega
  · omega

theorem findBlocks_joinNl :
    ∀ (blocks : List (Str × Str)),
      (∀ b ∈ blocks, b.1 ≠ [] ∧ '>' ∉ b.1 ∧ '<' ∉ b.2) →
      findBlocks (joinNl (blocks.map (fun b => blockText b.1 b.2))) =
        blocks.map (fun b => (b.1, '\n' :: b.2 ++ ['\n'])) := by
  intro blocks
  induction blocks with
  | nil => intro _; rfl
  | cons b rest ih =>
    intro h
    obtain ⟨h1, h2, h3⟩ := h b (by simp)
    cases rest with
    | nil =>
      show findBlocks (blockText b.1 b.2) = [(b.1, '\n' :: b.2 ++ ['\n'])]
      rw [show blockText b.1 b.2 = blockText b.1 b.2 ++ [] by simp]
      rw [findBlocks_block b.1 b.2 [] h1 h2 h3]
      rfl
    | cons b2 r =>
      show findBlocks (blockText b.1 b.2 ++
          '\n' :: joinNl ((b2 :: r).map (fun b => blockText b.1 b.2))) = _
      rw [findBlocks_block b.1 b.2 _ h1 h2 h3]
      rw [findBlocks_skip '\n' _ (by decide)]
      rw [ih (fun x hx => h x (List.mem_cons_of_mem b hx))]
      rfl

theorem trimBlockBody_wrap (b : Str) :
    trimBlockBody ('\n' :: b ++ ['\n']) = b := by
  show (match (b ++ ['\n']).reverse with
    | '\n' :: r => r.reverse
    | _ => b ++ ['\n']) = b
  rw [show (b ++ ['\n']).reverse = '\n' :: b.reverse by
    rw [List.reverse_append]; rfl]
  show b.reverse.reverse = b
  exact List.reverse_reverse b

theorem blockText_head? (tag body : Str) :
    (blockText tag body).head? = some '<' := rfl

theorem blockText_ne_nil (tag body : Str) : blockText tag body ≠ [] := by
  unfold blockText
  simp

theorem blockText_getLast? (tag body : Str) :
    (blockText tag body).getLast? = some '>' := by
  rw [show blockText tag body =
      ('<' :: tag ++ '>' :: '\n' :: body ++ '\n' :: '<' :: '/' :: tag) ++ ['>']
      by unfold blockText; simp]
  exact List.getLast?_concat _

theorem filterMap_map_pointwise {E : Type} (enc : E → Str)
    (g : Str → Option JValue) (val : E → JValue) :
    ∀ entries : List E, (∀ e ∈ entries, g (enc e) = some (val e)) →
      (entries.map enc).filterMap g = entries.map val := by
  intro entries
  induction entries with
  | nil => intro _; rfl
  | cons e rest ih =>
    intro h
    simp only [List.map_cons, List.filterMap_cons, h e (by simp)]
    rw [ih (fun x hx => h x (List.mem_cons_of_mem e hx))]

theorem filterMap_map_pointwise_none {E : Type} (enc : E → Str)
    (g : Str → Option Str) :
    ∀ entries : List E, (∀ e ∈ entries, g (enc e) = none) →
      (entries.map enc).filterMap g = [] := by
  intro entries
  induction entries with
  | nil => intro _; rfl
  | cons e rest ih =>
    intro h
    simp only [List.map_cons, List.filterMap_cons, h e (by simp)]
    exact ih (fun x hx => h x (List.mem_cons_of_mem e hx))

/-- The `json.dumps`/`json.loads` contract assumed of the standard
library for one value: parsing the serialization returns the value, and
the serialized text contains no newline, is nonempty, and neither starts
nor ends with whitespace.  (All hold for Python's `json.dumps` with its
default options.) -/
structure SerOk (dumps : JValue → Str) (loads : Str → Except Str JValue)
    (v : JValue) : Prop where
  rt : loads (dumps v) = .ok v
  noNl : ('\n' : Char) ∉ dumps v
  ne : dumps v ≠ []
  headNoWS : ∀ c, (dumps v).head? = some c → isPyWS c = false
  lastNoWS : ∀ c, (dumps v).getLast? = some c → isPyWS c = false

theorem mem_of_getLast?_some {α : Type} {l : List α} {a : α}
    (h : l.getLast? = some a) : a ∈ l := by
  rw [List.getLast?_eq_head?_reverse] at h
  exact List.mem_reverse.mp (List.mem_of_mem_head? h)

theorem roundtrip_jsonl (dumps : JValue → Str)
    (loads : Str → Except Str JValue) (entries : List (Str × Str))
    (H : ∀ e ∈ entries, SerOk dumps loads (itemJson e.1 (.str e.2))) :
    parse_input_file loads (encodeEntries dumps entries .jsonl) .jsonl =
      (entries.map (fun e => itemJson e.1 (.str e.2)), []) := by
  have hsome : ∀ e ∈ entries,
      jsonlItem loads (dumps (itemJson e.1 (JValue.str e.2))) =
        some (itemJson e.1 (JValue.str e.2)) := by
    intro e he
    have hse := H e he
    obtain ⟨c, hc⟩ : ∃ c, (dumps (itemJson e.1 (JValue.str e.2))).head? =
        some c := by
      cases h : (dumps (itemJson e.1 (JValue.str e.2))).head? with
      | none => exact absurd (List.head?_eq_none_iff.mp h) hse.ne
      | some c => exact ⟨c, rfl⟩
    have hnb := pyStrip_ne_nil_of_head _ c hc (hse.headNoWS c hc)
    simp [jsonlItem, hnb, hse.rt, Except.toOption]
  have hnone : ∀ e ∈ entries,
      jsonlWarn loads (dumps (itemJson e.1 (JValue.str e.2))) = none := by
    intro e he
    have hse := H e he
    obtain ⟨c, hc⟩ : ∃ c, (dumps (itemJson e.1 (JValue.str e.2))).head? =
        some c := by
      cases h : (dumps (itemJson e.1 (JValue.str e.2))).head? with
      | none => exact absurd (List.head?_eq_none_iff.mp h) hse.ne
      | some c => exact ⟨c, rfl⟩
    have hnb := pyStrip_ne_nil_of_head _ c hc (hse.headNoWS c hc)
    simp [jsonlWarn, hnb, hse.rt]
  cases entries with
  | nil => rfl
  | cons e0 rest =>
    have h0 := H e0 (by simp)
    have hlines_ne : ((e0 :: rest).map
        (fun e => dumps (itemJson e.1 (JValue.str e.2)))) ≠ [] := by simp
    have hflat : encodeEntries dumps (e0 :: rest) .jsonl =
        joinNl ((e0 :: rest).map
          (fun e => dumps (itemJson e.1 (JValue.str e.2)))) ++ ['\n'] := by
      rw [← flatten_map_nl _ hlines_ne]
      show ((e0 :: rest).map
        (fun e => dumps (itemJson e.1 (JValue.str e.2)) ++ ['\n'])).flatten = _
      rw [List.map_map]
      rfl
    have hhead : ∀ c, (joinNl ((e0 :: rest).map
        (fun e => dumps (itemJson e.1 (JValue.str e.2))))).head? = some c →
        isPyWS c = false := by
      intro c hc
      rw [show ((e0 :: rest).map
          (fun e => dumps (itemJson e.1 (JValue.str e.2)))) =
          dumps (itemJson e0.1 (JValue.str e0.2)) ::
            rest.map (fun e => dumps (itemJson e.1 (JValue.str e.2)))
          from rfl, joinNl_head? _ _ h0.ne] at hc
      exact h0.headNoWS c hc
    have hlast : ∀ c, (joinNl ((e0 :: rest).map
        (fun e => dumps (itemJson e.1 (JValue.str e.2))))).getLast? = some c →
        isPyWS c = false := by
      intro c hc
      obtain ⟨elast, hel⟩ : ∃ elast, (e0 :: rest).getLast? = some elast := by
        cases h : (e0 :: rest).getLast? with
        | none => exact absurd (List.getLast?_eq_none_iff.mp h) (by simp)
        | some elast => exact ⟨elast, rfl⟩
      have hll : ((e0 :: rest).map
          (fun e => dumps (itemJson e.1 (JValue.str e.2)))).getLast? =
          some (dumps (itemJson elast.1 (JValue.str elast.2))) := by
        rw [List.getLast?_map, hel]
        rfl
      have hse := H elast (mem_of_getLast?_some hel)
      rw [joinNl_getLast? _ _ hll hse.ne] at hc
      exact hse.lastNoWS c hc
    have hstrip : pyStrip (encodeEntries dumps (e0 :: rest) .jsonl) =
        joinNl ((e0 :: rest).map
          (fun e => dumps (itemJson e.1 (JValue.str e.2)))) := by
      rw [hflat]
      exact pyStrip_append_nl _ hhead hlast
    show parse_input loads (pyStrip (encodeEntries dumps (e0 :: rest) .jsonl))
      .jsonl = _
    rw [hstrip, parse_input_jsonl_eq]
    have hsplit : pySplit '\n' (joinNl ((e0 :: rest).map
        (fun e => dumps (itemJson e.1 (JValue.str e.2))))) =
        (e0 :: rest).map (fun e => dumps (itemJson e.1 (JValue.str e.2))) := by
      apply pySplit_joinNl _ hlines_ne
      intro l hl
      obtain ⟨e, he, rfl⟩ := List.mem_map.mp hl
      exact (H e he).noNl
    rw [hsplit]
    rw [filterMap_map_pointwise
      (fun e => dumps (itemJson e.1 (JValue.str e.2))) (jsonlItem loads)
      (fun e => itemJson e.1 (JValue.str e.2)) (e0 :: rest) hsome]
    rw [filterMap_map_pointwise_none
      (fun e => dumps (itemJson e.1 (JValue.str e.2))) (jsonlWarn loads)
      (e0 :: rest) hnone]

theorem strip_dumps_nl (dumps : JValue → Str) (loads : Str → Except Str JValue)
    (v : JValue) (h : SerOk dumps loads v) :
    pyStrip (dumps v ++ ['\n']) = dumps v :=
  pyStrip_append_nl _ h.headNoWS h.lastNoWS

theorem roundtrip_json (dumps : JValue → Str)
    (loads : Str → Except Str JValue) (entries : List (Str × Str))
    (H : SerOk dumps loads
      (.obj (pyDict (entries.map (fun e => (e.1, JValue.str e.2))))))
    (Hnodup : (entries.map Prod.fst).Nodup) :
    parse_input_file loads (encodeEntries dumps entries .json) .json =
      (entries.map (fun e => itemJson e.1 (.str e.2)), []) := by
  have hdedup : pyDict (entries.map (fun e => (e.1, JValue.str e.2))) =
      entries.map (fun e => (e.1, JValue.str e.2)) := by
    apply pyDict_eq_self_of_nodup
    rw [List.map_map]
    exact Hnodup
  show parse_input loads (pyStrip (dumps
    (.obj (pyDict (entries.map (fun e => (e.1, JValue.str e.2))))) ++ ['\n']))
    .json = _
  rw [strip_dumps_nl dumps loads _ H]
  simp only [parse_input]
  rw [H.rt]
  show ((pyDict (entries.map (fun e => (e.1, JValue.str e.2)))).map
    (fun kv => itemJson kv.1 kv.2), ([] : List Str)) = _
  rw [hdedup, List.map_map]
  rfl

theorem roundtrip_jsonarr (dumps : JValue → Str)
    (loads : Str → Except Str JValue) (entries : List (Str × Str))
    (H : SerOk dumps loads (.arr (entries.map (fun e => JValue.str e.2)))) :
    parse_input_file loads (encodeEntries dumps entries .jsonarr) .jsonarr =
      (entries.enum.map (fun ie => itemJson (itemPath ie.1) (.str ie.2.2)),
        []) := by
  show parse_input loads (pyStrip (dumps
    (.arr (entries.map (fun e => JValue.str e.2))) ++ ['\n'])) .jsonarr = _
  rw [strip_dumps_nl dumps loads _ H]
  simp only [parse_input]
  rw [H.rt]
  show ((entries.map (fun e => JValue.str e.2)).enum.map
    (fun iv => itemJson (itemPath iv.1) iv.2), ([] : List Str)) = _
  rw [List.enum_map, List.map_map]
  rfl

theorem tagged_strip_blocks (bodyEnc : (Str × Str) → Str)
    (entries : List (Str × Str))
    (hcond : ∀ e ∈ entries,
      tagOf e.1 ≠ [] ∧ '>' ∉ tagOf e.1 ∧ '<' ∉ bodyEnc e) :
    findBlocks (pyStrip ((entries.map
        (fun e => blockText (tagOf e.1) (bodyEnc e) ++ ['\n'])).flatten)) =
      entries.map (fun e => (tagOf e.1, '\n' :: bodyEnc e ++ ['\n'])) := by
  cases entries with
  | nil => rfl
  | cons e0 rest =>
    have hflat : ((e0 :: rest).map
        (fun e => blockText (tagOf e.1) (bodyEnc e) ++ ['\n'])).flatten =
        joinNl ((e0 :: rest).map
          (fun e => blockText (tagOf e.1) (bodyEnc e))) ++ ['\n'] := by
      rw [← flatten_map_nl ((e0 :: rest).map
        (fun e => blockText (tagOf e.1) (bodyEnc e))) (by simp), List.map_map]
      rfl
    rw [hflat]
    have hhead : ∀ c, (joinNl ((e0 :: rest).map
        (fun e => blockText (tagOf e.1) (bodyEnc e)))).head? = some c →
        isPyWS c = false := by
      intro c hc
      rw [show ((e0 :: rest).map
          (fun e => blockText (tagOf e.1) (bodyEnc e))) =
          blockText (tagOf e0.1) (bodyEnc e0) ::
            rest.map (fun e => blockText (tagOf e.1) (bodyEnc e)) from rfl,
        joinNl_head? _ _ (blockText_ne_nil _ _), blockText_head?] at hc
      injection hc with hc
      rw [← hc]
      decide
    have hlast : ∀ c, (joinNl ((e0 :: rest).map
        (fun e => blockText (tagOf e.1) (bodyEnc e)))).getLast? = some c →
        isPyWS c = false := by
      intro c hc
      obtain ⟨elast, hel⟩ : ∃ elast, (e0 :: rest).getLast? = some elast := by
        cases h : (e0 :: rest).getLast? with
        | none => exact absurd (List.getLast?_eq_none_iff.mp h) (by simp)
        | some elast => exact ⟨elast, rfl⟩
      have hll : ((e0 :: rest).map
          (fun e => blockText (tagOf e.1) (bodyEnc e))).getLast? =
          some (blockText (tagOf elast.1) (bodyEnc elast)) := by
        rw [List.getLast?_map, hel]
        rfl
      rw [joinNl_getLast? _ _ hll (blockText_ne_nil _ _),
        blockText_getLast?] at hc
      injection hc with hc
      rw [← hc]
      decide
    rw [pyStrip_append_nl _ hhead hlast]
    have hjb := findBlocks_joinNl ((e0 :: rest).map
        (fun e => (tagOf e.1, bodyEnc e)))
      (by
        intro b hb
        obtain ⟨e, he, rfl⟩ := List.mem_map.mp hb
        exact hcond e he)
    rw [List.map_map] at hjb
    rw [show ((fun b : Str × Str => blockText b.1 b.2) ∘
        (fun e : Str × Str => (tagOf e.1, bodyEnc e))) =
        (fun e : Str × Str => blockText (tagOf e.1) (bodyEnc e)) from rfl] at hjb
    rw [hjb, List.map_map]
    rfl

theorem roundtrip_xml (dumps : JValue → Str)
    (loads : Str → Except Str JValue) (entries : List (Str × Str))
    (H : ∀ e ∈ entries, pathSurvives e.1) :
    parse_input_file loads (encodeEntries dumps entries .xml) .xml =
      (entries.map (fun e => itemJson e.1 (.str e.2)), []) := by
  have hcond : ∀ e ∈ entries, tagOf e.1 ≠ [] ∧ '>' ∉ tagOf e.1 ∧
      '<' ∉ htmlEscape e.2 := fun e he =>
    ⟨tagOf_ne_nil e.1 (H e he).1, tagOf_no_gt e.1, htmlEscape_no_lt e.2⟩
  show ((findBlocks (pyStrip ((entries.map
      (fun e => blockText (tagOf e.1) (htmlEscape e.2) ++ ['\n'])).flatten))).map
      (fun tb => itemJson (tagToPath tb.1)
        (.str (htmlUnescape (trimBlockBody tb.2)))), ([] : List Str)) = _
  rw [tagged_strip_blocks (fun e => htmlEscape e.2) entries hcond,
    List.map_map]
  refine congrArg₂ Prod.mk ?_ rfl
  apply List.map_congr_left
  intro e he
  show itemJson (tagToPath (tagOf e.1))
    (.str (htmlUnescape (trimBlockBody ('\n' :: htmlEscape e.2 ++ ['\n'])))) = _
  rw [trimBlockBody_wrap, htmlUnescape_htmlEscape,
    tagToPath_tagOf e.1 (H e he).2]

theorem roundtrip_xmlish (dumps : JValue → Str)
    (loads : Str → Except Str JValue) (entries : List (Str × Str))
    (H : ∀ e ∈ entries, pathSurvives e.1 ∧ '<' ∉ e.2) :
    parse_input_file loads (encodeEntries dumps entries .xmlish) .xmlish =
      (entries.map (fun e => itemJson e.1 (.str e.2)), []) := by
  have hcond : ∀ e ∈ entries, tagOf e.1 ≠ [] ∧ '>' ∉ tagOf e.1 ∧
      '<' ∉ e.2 := fun e he =>
    ⟨tagOf_ne_nil e.1 (H e he).1.1, tagOf_no_gt e.1, (H e he).2⟩
  show ((findBlocks (pyStrip ((entries.map
      (fun e => blockText (tagOf e.1) e.2 ++ ['\n'])).flatten))).map
      (fun tb => itemJson (tagToPath tb.1)
        (.str (trimBlockBody tb.2))), ([] : List Str)) = _
  rw [tagged_strip_blocks (fun e => e.2) entries hcond, List.map_map]
  refine congrArg₂ Prod.mk ?_ rfl
  apply List.map_congr_left
  intro e he
  show itemJson (tagToPath (tagOf e.1))
    (.str (trimBlockBody ('\n' :: e.2 ++ ['\n']))) = _
  rw [trimBlockBody_wrap, tagToPath_tagOf e.1 (H e he).1.2]

theorem serOk_of_checks (dumps : JValue → Str)
    (loads : Str → Except Str JValue) (v : JValue) (c1 c2 : Char)
    (h1 : loads (dumps v) = .ok v) (h2 : ('\n' : Char) ∉ dumps v)
    (h3 : dumps v ≠ []) (h4 : (dumps v).head? = some c1)
    (h5 : isPyWS c1 = false) (h6 : (dumps v).getLast? = some c2)
    (h7 : isPyWS c2 = false) : SerOk dumps loads v := by
  refine ⟨h1, h2, h3, ?_, ?_⟩
  · intro c hc
    rw [h4] at hc
    injection hc with hc
    rw [← hc]
    exact h5
  · intro c hc
    rw [h6] at hc
    injection hc with hc
    rw [← hc]
    exact h7

/-- Claim C3 as amended, per format (under the `json` standard-library
contract `SerOk` for the JSON-based formats): decoding the encoding of a
`(path, content)` sequence

* reproduces every path and content exactly for the line-delimited format;
* reproduces them for the keyed-object format when the paths are distinct
  (duplicates collapse, see the keyed-object claim);
* reproduces only the contents for the positional-array format — paths
  are replaced by the synthetic `item_{index}`;
* reproduces both for the two tagged formats in the common case: every
  path nonempty and made of characters that survive the tag transform
  and its reverse (`[A-Za-z0-9-]` and `.`, no `_`), with arbitrary
  content for the escaped variant and `<`-free content for the raw
  variant. -/
theorem roundtrip_by_format (dumps : JValue → Str)
    (loads : Str → Except Str JValue) (entries : List (Str × Str))
    (hne : entries ≠ []) :
    ((∀ e ∈ entries, SerOk dumps loads (itemJson e.1 (.str e.2))) →
      parse_input_file loads (encodeEntries dumps entries .jsonl) .jsonl =
        (entries.map (fun e => itemJson e.1 (.str e.2)), [])) ∧
    (SerOk dumps loads
        (.obj (pyDict (entries.map (fun e => (e.1, JValue.str e.2))))) →
      (entries.map Prod.fst).Nodup →
      parse_input_file loads (encodeEntries dumps entries .json) .json =
        (entries.map (fun e => itemJson e.1 (.str e.2)), [])) ∧
    (SerOk dumps loads (.arr (entries.map (fun e => JValue.str e.2))) →
      parse_input_file loads (encodeEntries dumps entries .jsonarr) .jsonarr =
        (entries.enum.map (fun ie => itemJson (itemPath ie.1) (.str ie.2.2)),
          [])) ∧
    ((∀ e ∈ entries, pathSurvives e.1) →
      parse_input_file loads (encodeEntries dumps entries .xml) .xml =
        (entries.map (fun e => itemJson e.1 (.str e.2)), [])) ∧
    ((∀ e ∈ entries, pathSurvives e.1 ∧ '<' ∉ e.2) →
      parse_input_file loads (encodeEntries dumps entries .xmlish) .xmlish =
        (entries.map (fun e => itemJson e.1 (.str e.2)), [])) :=
  ⟨roundtrip_jsonl dumps loads entries,
   roundtrip_json dumps loads entries,
   roundtrip_jsonarr dumps loads entries,
   roundtrip_xml dumps loads entries,
   roundtrip_xmlish dumps loads entries⟩

/-- Claim C3 counterexample: for the positional-array format — one of
the five, and not a tagged one — decode ∘ encode does not reproduce the
path: encoding `[("a", "x")]` and decoding yields path `item_0`, not
`"a"`, although `"a"` consists only of characters inside
`[A-Za-z0-9_-]`. -/
theorem roundtrip_counterexample :
    (parse_input_file miniLoads
      (encodeEntries miniDumps [("a".toList, "x".toList)] .jsonarr)
      .jsonarr).1 =
      [itemJson "item_0".toList (.str "x".toList)] ∧
    "item_0".toList ≠ "a".toList :=
  ⟨rfl, by decide⟩

theorem roundtrip_by_format_witness :
    parse_input_file miniLoads
      (encodeEntries miniDumps [("a.txt".toList, "hi".toList)] .jsonl)
      .jsonl = ([itemJson "a.txt".toList (.str "hi".toList)], []) ∧
    parse_input_file miniLoads
      (encodeEntries miniDumps [("a.txt".toList, "hi".toList)] .json)
      .json = ([itemJson "a.txt".toList (.str "hi".toList)], []) ∧
    parse_input_file miniLoads
      (encodeEntries miniDumps [("a.txt".toList, "hi".toList)] .jsonarr)
      .jsonarr = ([itemJson "item_0".toList (.str "hi".toList)], []) ∧
    parse_input_file miniLoads
      (encodeEntries miniDumps [("a.txt".toList, "hi".toList)] .xml)
      .xml = ([itemJson "a.txt".toList (.str "hi".toList)], []) ∧
    parse_input_file miniLoads
      (encodeEntries miniDumps [("a.txt".toList, "hi".toList)] .xmlish)
      .xmlish = ([itemJson "a.txt".toList (.str "hi".toList)], []) := by
  have h := roundtrip_by_format miniDumps miniLoads
    [("a.txt".toList, "hi".toList)] (by simp)
  refine ⟨?_, ?_, ?_, ?_, ?_⟩
  · exact h.1 (by
      intro e he
      rw [List.mem_singleton] at he
      subst he
      exact serOk_of_checks _ _ _ '\x7b' '\x7d' rfl (by decide) (by decide)
        rfl (by decide) rfl (by decide))
  · exact h.2.1
      (serOk_of_checks _ _ _ '\x7b' '\x7d' rfl (by decide) (by decide)
        rfl (by decide) rfl (by decide))
      (by decide)
  · exact h.2.2.1
      (serOk_of_checks _ _ _ '[' ']' rfl (by decide) (by decide)
        rfl (by decide) rfl (by decide))
  · exact h.2.2.2.1 (by
      intro e he
      rw [List.mem_singleton] at he
      subst he
      exact ⟨by decide, by decide⟩)
  · exact h.2.2.2.2 (by
      intro e he
      rw [List.mem_singleton] at he
      subst he
      exact ⟨⟨by decide, by decide⟩, by decide⟩)
